import Mathlib

/-!
# k8s-deployment-updater: digest-pinning reconciliation

A shallow embedding of the reconcile phase of `main.go` (lines 89-145): the
closure handed to `retry.RetryOnConflict`, the retry helper that drives it and
the error check that follows.

Conventions of the embedding

* A Go `string` is a Lean `String`; `strings.Split` is embedded for a
  one-character separator, which is what both call sites pass ("@" and ":").
* `result.Object` is a decoded JSON document: `map[string]interface{}` becomes an
  association list (first binding of a key wins, assignment replaces the first
  binding or appends), `[]interface{}` becomes a list.
* The dynamic client is an explicit state machine `Client σ`; every call is
  appended to a chronological trace, together with the two lines the closure
  prints, so that fetches, submits and successful writes can be counted.
* `panic` and `os.Exit` end the process: a computation yields a `Flow`, either a
  normal return or a halt carrying the way the process ended.
* Sleeping between retry attempts is real time and is not represented.
-/

namespace K8sDeploymentUpdater

/-! ## Data model -/

/-- Content hash `v1.Hash` of go-containerregistry: an algorithm tag and a hex value. -/
structure Hash where
  Algorithm : String
  Hex : String

/-- Digest-form representation of a hash, `Hash.String()`: algorithm, a colon, the hex value. -/
def Hash.digestForm (h : Hash) : String :=
  h.Algorithm ++ ":" ++ h.Hex

/-- Decoded JSON value as stored in `unstructured.Unstructured.Object`. Numbers
are kept as opaque payloads; the program never inspects them. -/
inductive JSONValue where
  | null : JSONValue
  | bool (b : Bool) : JSONValue
  | int64 (n : Int) : JSONValue
  | float64 (bits : Nat) : JSONValue
  | string (s : String) : JSONValue
  | slice (xs : List JSONValue) : JSONValue
  | map (m : List (String × JSONValue)) : JSONValue

/-- Go `map[string]interface{}`. -/
abbrev Object := List (String × JSONValue)

/-- Map read `m[k]` with the comma-ok form: the value bound to `k`, if any. -/
def mapGet (m : Object) (k : String) : Option JSONValue :=
  m.lookup k

/-- Map assignment `m[k] = v`: replaces the binding of `k`, or adds one. -/
def mapSet : Object → String → JSONValue → Object
  | [], k, v => [(k, v)]
  | (k0, v0) :: rest, k, v =>
    if k = k0 then (k0, v) :: rest else (k0, v0) :: mapSet rest k v

/-- Error returned by the API server; `errors.IsConflict` only tells a version
conflict from everything else. -/
inductive APIError where
  | conflict : APIError
  | other (reason : String) : APIError

/-- Predicate `errors.IsConflict`. -/
def IsConflict : APIError → Bool
  | .conflict => true
  | .other _ => false

/-- Resource-store collaborator (the dynamic client bound to the deployment):
`Get` answers with a document or an error, `Update` with an optional error. Both
may change the store state `σ`. -/
structure Client (σ : Type) where
  Get : σ → Except APIError Object × σ
  Update : σ → Object → Option APIError × σ

/-- Observable actions of a run, in the order they happen. -/
inductive Event where
  | get (r : Except APIError Object) : Event
  | update (obj : Object) (err : Option APIError) : Event
  | printUpToDate : Event
  | printUpdated (old new : String) : Event

/-- Store state together with the trace of what has happened so far. -/
structure World (σ : Type) where
  st : σ
  trace : List Event

/-- Record one more event at the end of the trace. -/
def World.emit {σ : Type} (w : World σ) (e : Event) : World σ :=
  World.mk w.st (w.trace ++ [e])

/-- Places where the process can panic. -/
inductive PanicSite where
  | getFailed (e : APIError) : PanicSite
  | containersNotFound : PanicSite
  | typeAssertion : PanicSite
  | indexOutOfRange : PanicSite
  | setNestedField : PanicSite
  | updateErr (e : APIError) : PanicSite
  | containerNotFound : PanicSite
  | updateFailed (e : APIError) : PanicSite

/-- How the process ends: `os.Exit(code)` or falling off `main` (code 0), or an
unrecovered panic. -/
inductive Termination where
  | exit (code : Nat) : Termination
  | panic (p : PanicSite) : Termination

/-- Process exit status; the Go runtime ends an unrecovered panic with status 2. -/
def Termination.exitCode : Termination → Nat
  | .exit code => code
  | .panic _ => 2

/-- Result of running a piece of code: it returns a value, or the process halts. -/
inductive Flow (α : Type) where
  | ret (a : α) : Flow α
  | halt (t : Termination) : Flow α

/-! ## Library functions used by the closure -/

/-- Splitting a character sequence at every occurrence of `sep`. -/
def splitChars (sep : Char) : List Char → List (List Char)
  | [] => [[]]
  | c :: cs =>
    if c = sep then [] :: splitChars sep cs
    else
      match splitChars sep cs with
      | [] => [[c]]
      | p :: ps => (c :: p) :: ps

/-- Go `strings.Split(s, sep)` for a one-character separator. -/
def Split (s : String) (sep : Char) : List String :=
  (splitChars sep s.data).map String.mk

/-- Three-way result of the `unstructured.Nested*` accessors: `(v, true, nil)`,
`(nil, false, nil)` and `(nil, false, err)`. -/
inductive Nested (α : Type) where
  | ok (v : α) : Nested α
  | notFound : Nested α
  | error : Nested α

/-- Accessor `unstructured.NestedFieldNoCopy`: walk down `fields` through maps. -/
def NestedFieldNoCopy : JSONValue → List String → Nested JSONValue
  | val, [] => .ok val
  | .null, _ :: _ => .notFound
  | .map m, field :: rest =>
    match mapGet m field with
    | some v => NestedFieldNoCopy v rest
    | none => .notFound
  | _, _ :: _ => .error

/-- Accessor `unstructured.NestedSlice`: the value at `fields`, which must be a slice. -/
def NestedSlice (obj : Object) (fields : List String) : Nested (List JSONValue) :=
  match NestedFieldNoCopy (.map obj) fields with
  | .ok (.slice xs) => .ok xs
  | .ok _ => .error
  | .notFound => .notFound
  | .error => .error

/-- Setter `unstructured.SetNestedField`: walk down all but the last field,
creating maps for missing keys, and assign the last one. `none` is the error for
a non-map value on the way. -/
def SetNestedField : Object → JSONValue → List String → Option Object
  | _, _, [] => none
  | m, value, [field] => some (mapSet m field value)
  | m, value, field :: rest =>
    match mapGet m field with
    | some (.map valMap) =>
      (SetNestedField valMap value rest).map (fun sub => mapSet m field (.map sub))
    | some _ => none
    | none =>
      (SetNestedField [] value rest).map (fun sub => mapSet m field (.map sub))

/-- Retry policy `wait.Backoff`; only the attempt bound matters here. -/
structure Backoff where
  Steps : Nat

/-- Policy `retry.DefaultRetry`. -/
def DefaultRetry : Backoff :=
  Backoff.mk 5

/-- Helper `retry.OnError` over `wait.ExponentialBackoff`: call `fn` until it
succeeds, fails with a non-retriable error, or the steps run out, in which case
the last retriable error is returned. A halt of `fn` ends everything. -/
def OnError {σ : Type} (retriable : APIError → Bool)
    (fn : World σ → Flow (Option APIError) × World σ) :
    Nat → Option APIError → World σ → Flow (Option APIError) × World σ
  | 0, lastErr, w => (.ret lastErr, w)
  | steps + 1, _, w =>
    match fn w with
    | (.halt t, w1) => (.halt t, w1)
    | (.ret none, w1) => (.ret none, w1)
    | (.ret (some err), w1) =>
      if retriable err then OnError retriable fn steps (some err) w1
      else (.ret (some err), w1)

/-- Helper `retry.RetryOnConflict`. -/
def RetryOnConflict {σ : Type} (backoff : Backoff)
    (fn : World σ → Flow (Option APIError) × World σ) (w : World σ) :
    Flow (Option APIError) × World σ :=
  OnError IsConflict fn backoff.Steps none w

/-! ## The closure of `main` -/

/-- Field path of the container list inside a deployment. -/
def containersPath : List String :=
  ["spec", "template", "spec", "containers"]

/-- Lines 107-110: split on "@", and on ":" when that gave a single part. -/
def parts (currentImageReference : String) : List String :=
  if (Split currentImageReference '@').length = 1 then Split currentImageReference ':'
  else Split currentImageReference '@'

/-- Lines 115-118: the second part when there are exactly two, else "latest". -/
def currentImageTag (ps : List String) : String :=
  match ps with
  | [_, tag] => tag
  | _ => "latest"

/-- Line 120: the pinned suffix for the resolved digest. -/
def latestDigestTag (digest : Hash) : String :=
  "sha256:" ++ digest.Hex

/-- Lines 105-141: the loop over the containers, `done` being the entries
already skipped, followed by the panic for a loop that ran to its end. -/
def containerLoop {σ : Type} (client : Client σ) (imageName : String) (digest : Hash)
    (result : Object) :
    List JSONValue → List JSONValue → World σ → Flow (Option APIError) × World σ
  | _, [], w => (.halt (.panic .containerNotFound), w)
  | done, c :: rest, w =>
    match c with
    | .map cm =>
      match mapGet cm "image" with
      | some (.string currentImageReference) =>
        match parts currentImageReference with
        | [] => (.halt (.panic .indexOutOfRange), w)
        | currentImageName :: ps =>
          if currentImageName ≠ imageName then
            containerLoop client imageName digest result (done ++ [c]) rest w
          else if currentImageTag (currentImageName :: ps) = latestDigestTag digest then
            (.halt (.exit 0), w.emit .printUpToDate)
          else
            let newImageReference := currentImageName ++ "@" ++ latestDigestTag digest
            match SetNestedField cm (.string newImageReference) ["image"] with
            | none => (.halt (.panic .setNestedField), w)
            | some cm1 =>
              match SetNestedField result (.slice (done ++ .map cm1 :: rest)) containersPath with
              | none => (.halt (.panic .setNestedField), w)
              | some result1 =>
                match client.Update w.st result1 with
                | (some updateErr, st1) =>
                  (.halt (.panic (.updateErr updateErr)),
                    (World.mk st1 w.trace).emit (.update result1 (some updateErr)))
                | (none, st1) =>
                  (.halt (.exit 0),
                    ((World.mk st1 w.trace).emit (.update result1 none)).emit
                      (.printUpdated currentImageReference newImageReference))
      | _ => (.halt (.panic .typeAssertion), w)
    | _ => (.halt (.panic .typeAssertion), w)

/-- Lines 91-142: the function passed to `retry.RetryOnConflict`. -/
def closure {σ : Type} (client : Client σ) (imageName : String) (digest : Hash)
    (w : World σ) : Flow (Option APIError) × World σ :=
  match client.Get w.st with
  | (.error getErr, st1) =>
    (.halt (.panic (.getFailed getErr)), (World.mk st1 w.trace).emit (.get (.error getErr)))
  | (.ok result, st1) =>
    match NestedSlice result containersPath with
    | .ok containers =>
      containerLoop client imageName digest result [] containers
        ((World.mk st1 w.trace).emit (.get (.ok result)))
    | _ =>
      (.halt (.panic .containersNotFound), (World.mk st1 w.trace).emit (.get (.ok result)))

/-- Lines 91-145 of `main`: run the closure under `retry.RetryOnConflict` with
`retry.DefaultRetry`, then panic when the helper returned an error. -/
def main {σ : Type} (client : Client σ) (imageName : String) (digest : Hash)
    (w : World σ) : Termination × World σ :=
  match RetryOnConflict DefaultRetry (closure client imageName digest) w with
  | (.halt t, w1) => (t, w1)
  | (.ret (some retryErr), w1) => (.panic (.updateFailed retryErr), w1)
  | (.ret none, w1) => (.exit 0, w1)

/-! ## Specification vocabulary -/

/-- Bare name of an entry in the words of the specification: the part before the
first '@', or before the first ':' when the entry has no '@'. -/
def bareName (entry : String) : String :=
  if '@' ∈ entry.data then String.mk (entry.data.takeWhile (fun c => c != '@'))
  else String.mk (entry.data.takeWhile (fun c => c != ':'))

/-- Image string carried by a container record: the record is a map and binds
"image" to a string. -/
def imageOf : JSONValue → Option String
  | .map cm =>
    match mapGet cm "image" with
    | some (.string s) => some s
    | _ => none
  | _ => none

/-- A record the matcher passes over: it carries an image string whose bare name
is not `n`. -/
def Skips (n : String) (c : JSONValue) : Prop :=
  ∃ e, imageOf c = some e ∧ bareName e ≠ n

/-- Entry `i` is the first entry whose bare name equals `n`, and its image string
is `img`: every earlier entry carries an image string with another bare name. -/
def FirstMatchAt (containers : List JSONValue) (n : String) (i : Nat) (img : String) : Prop :=
  (∀ j, j < i → ∃ e, containers[j]?.bind imageOf = some e ∧ bareName e ≠ n) ∧
    containers[i]?.bind imageOf = some img ∧ bareName img = n

/-- Two field paths part ways: they differ at a position both have. -/
def diverge : List String → List String → Bool
  | f :: fs, p :: ps => if f = p then diverge fs ps else true
  | _, _ => false

/-- Number of fetches in a trace. -/
def fetches : List Event → Nat
  | [] => 0
  | .get _ :: tr => fetches tr + 1
  | _ :: tr => fetches tr

/-- Number of submits in a trace, whatever the store answered. -/
def submits : List Event → Nat
  | [] => 0
  | .update _ _ :: tr => submits tr + 1
  | _ :: tr => submits tr

/-- Number of submits the store accepted. -/
def successfulWrites : List Event → Nat
  | [] => 0
  | .update _ none :: tr => successfulWrites tr + 1
  | _ :: tr => successfulWrites tr

/-- Documents submitted to the store, in order. -/
def submitted : List Event → List Object
  | [] => []
  | .update obj _ :: tr => obj :: submitted tr
  | _ :: tr => submitted tr

/-- Document the store holds after a run when nobody else writes: the last
accepted submit, and the last fetched document when nothing was accepted. -/
def storedAfter : List Event → Option Object
  | [] => none
  | .get (.ok obj) :: tr => (storedAfter tr).orElse (fun _ => some obj)
  | .update obj none :: tr => (storedAfter tr).orElse (fun _ => some obj)
  | _ :: tr => storedAfter tr

/-- Outcomes named by the specification of the Conditional Updater. -/
inductive Outcome where
  | Updated : Outcome
  | AlreadyCurrent : Outcome
  | NotFoundInResource : Outcome
  | ConflictExhausted : Outcome
  | StoreError : Outcome
  | Aborted : Outcome

/-- Reading of a finished run as an outcome: the two success lines printed before
`os.Exit(0)`, and the panic sites. -/
def outcome (t : Termination) (tr : List Event) : Outcome :=
  match t, tr.getLast? with
  | .exit 0, some .printUpToDate => .AlreadyCurrent
  | .exit 0, some (.printUpdated _ _) => .Updated
  | .panic .containerNotFound, _ => .NotFoundInResource
  | .panic (.updateFailed .conflict), _ => .ConflictExhausted
  | .panic (.updateFailed (.other _)), _ => .StoreError
  | .panic (.getFailed _), _ => .StoreError
  | .panic (.updateErr _), _ => .StoreError
  | _, _ => .Aborted

/-- Ways the process can end at all: exit status 0, or a panic other than the
"update failed" one that follows the retry helper. -/
def EndsInside (t : Termination) : Prop :=
  t = .exit 0 ∨ ∃ p, t = .panic p ∧ ∀ e, p ≠ .updateFailed e

/-! ## Sample stores and documents -/

/-- A store that serves one document and answers every submit the same way. -/
def fixedClient (doc : Object) (answer : Option APIError) : Client Unit :=
  Client.mk (fun st => (.ok doc, st)) (fun st _ => (answer, st))

/-- A store that keeps the last submitted document and accepts every submit. -/
def memoryClient : Client Object :=
  Client.mk (fun st => (.ok st, st)) (fun _ obj => (none, obj))

/-- A store that serves `doc` and answers the first `k` submits with a version
conflict and accepts the following ones; the state counts the submits. -/
def conflictingClient (doc : Object) (k : Nat) : Client Nat :=
  Client.mk (fun st => (.ok doc, st))
    (fun st _ => (if st < k then some .conflict else none, st + 1))

/-- The logical image name of the sample runs. -/
def appName : String :=
  "registry.example/app"

/-- The resolved digest of the sample runs, `sha256:aa11`. -/
def appDigest : Hash :=
  Hash.mk "sha256" "aa11"

/-- A container record with a name and an image. -/
def container (name image : String) : JSONValue :=
  .map [("name", .string name), ("image", .string image)]

/-- A deployment document around a container list. -/
def deployment (containers : List JSONValue) : Object :=
  [("apiVersion", .string "apps/v1"), ("kind", .string "Deployment"),
    ("metadata", .map [("name", .string "web"), ("resourceVersion", .string "41")]),
    ("spec", .map [("replicas", .int64 2),
      ("template", .map [("spec", .map [("containers", .slice containers)])])])]

/-! ## Splitting -/

theorem splitChars_ne_nil (sep : Char) (s : List Char) : splitChars sep s ≠ [] := by
  cases s with
  | nil => simp [splitChars]
  | cons c cs =>
    unfold splitChars
    split
    · simp
    · split <;> simp

theorem splitChars_of_not_mem (sep : Char) (s : List Char) (h : sep ∉ s) :
    splitChars sep s = [s] := by
  induction s with
  | nil => simp [splitChars]
  | cons c cs ih =>
    simp only [List.mem_cons, not_or] at h
    have hc : c ≠ sep := fun e => h.1 e.symm
    simp [splitChars, hc, ih h.2]

theorem splitChars_append (sep : Char) (a b : List Char) (h : sep ∉ a) :
    splitChars sep (a ++ sep :: b) = a :: splitChars sep b := by
  induction a with
  | nil => simp [splitChars]
  | cons c cs ih =>
    simp only [List.mem_cons, not_or] at h
    have hc : c ≠ sep := fun e => h.1 e.symm
    simp [splitChars, hc, ih h.2]

theorem splitChars_head (sep : Char) (s : List Char) :
    ∃ ps, splitChars sep s = s.takeWhile (fun c => c != sep) :: ps := by
  induction s with
  | nil => exact ⟨[], by simp [splitChars]⟩
  | cons c cs ih =>
    obtain ⟨ps, hps⟩ := ih
    by_cases hc : c = sep
    · exact ⟨splitChars sep cs, by simp [splitChars, hc]⟩
    · exact ⟨ps, by simp [splitChars, hc, hps]⟩

theorem splitChars_length_cons_ne (sep c : Char) (cs : List Char) (hc : c ≠ sep) :
    (splitChars sep (c :: cs)).length = (splitChars sep cs).length := by
  cases h : splitChars sep cs with
  | nil => exact absurd h (splitChars_ne_nil sep cs)
  | cons q qs => simp [splitChars, hc, h]

theorem two_le_length_splitChars (sep : Char) (s : List Char) (h : sep ∈ s) :
    2 ≤ (splitChars sep s).length := by
  induction s with
  | nil => simp at h
  | cons c cs ih =>
    by_cases hc : c = sep
    · have hne := splitChars_ne_nil sep cs
      cases hb : splitChars sep cs with
      | nil => exact absurd hb hne
      | cons x xs => simp [splitChars, hc, hb]
    · rw [splitChars_length_cons_ne sep c cs hc]
      simp only [List.mem_cons] at h
      rcases h with h | h
      · exact absurd h.symm hc
      · exact ih h

theorem splitChars_length_eq_one (sep : Char) (s : List Char) :
    (splitChars sep s).length = 1 ↔ sep ∉ s := by
  constructor
  · intro hlen hmem
    have := two_le_length_splitChars sep s hmem
    omega
  · intro h
    rw [splitChars_of_not_mem sep s h]; rfl

theorem not_mem_of_mem_splitChars (sep : Char) (s p : List Char)
    (hp : p ∈ splitChars sep s) : sep ∉ p := by
  induction s generalizing p with
  | nil => simp [splitChars] at hp; subst hp; simp
  | cons c cs ih =>
    by_cases hc : c = sep
    · simp only [splitChars, hc, if_true, List.mem_cons] at hp
      rcases hp with rfl | hp
      · simp
      · exact ih p hp
    · obtain ⟨q, qs, hq⟩ : ∃ q qs, splitChars sep cs = q :: qs := by
        cases h : splitChars sep cs with
        | nil => exact absurd h (splitChars_ne_nil sep cs)
        | cons q qs => exact ⟨q, qs, rfl⟩
      simp only [splitChars, hc, if_false, hq, List.mem_cons] at hp
      rcases hp with rfl | hp
      · have hq1 : sep ∉ q := ih q (by rw [hq]; exact List.mem_cons_self _ _)
        simp only [List.mem_cons, not_or]
        exact ⟨fun e => hc e.symm, hq1⟩
      · exact ih p (by rw [hq]; exact List.mem_cons_of_mem _ hp)

/-! ## Name and suffix recovered from an entry -/

theorem Split_length (s : String) (sep : Char) :
    (Split s sep).length = (splitChars sep s.data).length := by
  simp [Split]

theorem parts_of_at (e : String) (h : '@' ∈ e.data) : parts e = Split e '@' := by
  have : (Split e '@').length ≠ 1 := by
    rw [Split_length, Ne, splitChars_length_eq_one]
    exact fun hn => hn h
  simp [parts, this]

theorem parts_of_no_at (e : String) (h : '@' ∉ e.data) : parts e = Split e ':' := by
  have : (Split e '@').length = 1 := by
    rw [Split_length, splitChars_length_eq_one]
    exact h
  simp [parts, this]

/-- The name the closure compares (`parts[0]`) is the bare name of the entry. -/
theorem parts_head (e : String) : ∃ ps, parts e = bareName e :: ps := by
  by_cases h : '@' ∈ e.data
  · obtain ⟨ps, hps⟩ := splitChars_head '@' e.data
    exact ⟨ps.map String.mk, by simp [parts_of_at e h, Split, hps, bareName, h]⟩
  · obtain ⟨ps, hps⟩ := splitChars_head ':' e.data
    exact ⟨ps.map String.mk, by simp [parts_of_no_at e h, Split, hps, bareName, h]⟩

theorem not_mem_takeWhile_ne (sep : Char) (s : List Char) :
    sep ∉ s.takeWhile (fun c => c != sep) := by
  intro h
  have := List.mem_takeWhile_imp h
  simp at this

theorem bareName_no_at (e : String) : '@' ∉ (bareName e).data := by
  by_cases h : '@' ∈ e.data
  · simp only [bareName, h, if_true]
    exact not_mem_takeWhile_ne '@' e.data
  · simp only [bareName, h, if_false]
    intro hm
    exact h ((List.takeWhile_sublist _).subset hm)

theorem colon_mem_latestDigestTag (digest : Hash) : ':' ∈ (latestDigestTag digest).data := by
  have : (latestDigestTag digest).data = "sha256:".data ++ digest.Hex.data := by
    simp [latestDigestTag, String.data_append]
  rw [this]
  exact List.mem_append_left _ (by decide)

theorem latest_ne_latestDigestTag (digest : Hash) : "latest" ≠ latestDigestTag digest := by
  intro h
  have h1 := colon_mem_latestDigestTag digest
  rw [← h] at h1
  revert h1
  decide

/-- Without an '@' in the entry, the suffix the closure extracts has no ':'. -/
theorem currentImageTag_no_colon (e : String) (h : '@' ∉ e.data) :
    ':' ∉ (currentImageTag (parts e)).data := by
  rw [parts_of_no_at e h]
  have hall : ∀ p ∈ Split e ':', ':' ∉ p.data := by
    intro p hp
    simp only [Split, List.mem_map] at hp
    obtain ⟨q, hq, rfl⟩ := hp
    exact not_mem_of_mem_splitChars ':' e.data q hq
  match hs : Split e ':' with
  | [] => simp [currentImageTag]
  | [_] => simp [currentImageTag]
  | [a, b] =>
    have := hall b (by rw [hs]; simp)
    simpa [currentImageTag] using this
  | _ :: _ :: _ :: _ => simp [currentImageTag]

/-- An entry without '@' is never already pinned. -/
theorem currentImageTag_ne_of_no_at (e : String) (digest : Hash) (h : '@' ∉ e.data) :
    currentImageTag (parts e) ≠ latestDigestTag digest := by
  intro heq
  have h1 := currentImageTag_no_colon e h
  rw [heq] at h1
  exact h1 (colon_mem_latestDigestTag digest)

/-- A tag-form entry `n:t` whose bare name is `n` contains no '@'. -/
theorem no_at_of_tag_form (n t : String) (h : bareName (n ++ ":" ++ t) = n) :
    '@' ∉ (n ++ ":" ++ t).data := by
  intro hat
  have hn : '@' ∉ n.data := by
    have := bareName_no_at (n ++ ":" ++ t)
    rwa [h] at this
  have hd : (n ++ ":" ++ t).data = n.data ++ ':' :: t.data := by
    simp [String.data_append]
  simp only [bareName, hat, if_true] at h
  have h2 := congrArg String.data h
  simp only [hd] at h2
  rw [List.takeWhile_append_of_pos] at h2
  · simp [List.takeWhile] at h2
  · intro c hc
    have : c ≠ '@' := fun e => hn (e ▸ hc)
    simpa using this

/-- What the closure recovers from an entry pinned to `digest`. -/
theorem parts_pinned (n : String) (digest : Hash) (hn : '@' ∉ n.data)
    (hh : '@' ∉ digest.Hex.data) :
    parts (n ++ "@" ++ latestDigestTag digest) = [n, latestDigestTag digest] := by
  have hd : (n ++ "@" ++ latestDigestTag digest).data
      = n.data ++ '@' :: (latestDigestTag digest).data := by
    simp [String.data_append]
  have hl : '@' ∉ (latestDigestTag digest).data := by
    have : (latestDigestTag digest).data = "sha256:".data ++ digest.Hex.data := by
      simp [latestDigestTag, String.data_append]
    rw [this, List.mem_append, not_or]
    exact ⟨by decide, hh⟩
  have hat : '@' ∈ (n ++ "@" ++ latestDigestTag digest).data := by
    rw [hd]; simp
  rw [parts_of_at _ hat, Split, hd, splitChars_append '@' _ _ hn,
    splitChars_of_not_mem '@' _ hl]
  rfl

theorem bareName_pinned (n : String) (digest : Hash) (hn : '@' ∉ n.data)
    (hh : '@' ∉ digest.Hex.data) :
    bareName (n ++ "@" ++ latestDigestTag digest) = n := by
  obtain ⟨ps, hps⟩ := parts_head (n ++ "@" ++ latestDigestTag digest)
  rw [parts_pinned n digest hn hh] at hps
  simp only [List.cons.injEq] at hps
  exact hps.1.symm

/-! ## Maps and nested fields -/

theorem mapGet_mapSet_self (m : Object) (k : String) (v : JSONValue) :
    mapGet (mapSet m k v) k = some v := by
  induction m with
  | nil => simp [mapSet, mapGet, List.lookup]
  | cons kv rest ih =>
    obtain ⟨k0, v0⟩ := kv
    by_cases h : k = k0
    · subst h; simp [mapSet, mapGet, List.lookup]
    · have hb : (k == k0) = false := by simpa using h
      simp only [mapGet] at ih
      simp [mapSet, mapGet, List.lookup, h, hb, ih]

theorem mapGet_mapSet_ne (m : Object) (k k1 : String) (v : JSONValue) (hk : k1 ≠ k) :
    mapGet (mapSet m k v) k1 = mapGet m k1 := by
  induction m with
  | nil =>
    have hb : (k1 == k) = false := by simpa using hk
    simp [mapSet, mapGet, List.lookup, hb]
  | cons kv rest ih =>
    obtain ⟨k0, v0⟩ := kv
    simp only [mapGet] at ih
    by_cases h : k = k0
    · subst h
      have hb : (k1 == k) = false := by simpa using hk
      simp [mapSet, mapGet, List.lookup, hb]
    · by_cases h1 : k1 = k0
      · subst h1; simp [mapSet, mapGet, List.lookup, h]
      · have hb : (k1 == k0) = false := by simpa using h1
        simp [mapSet, mapGet, List.lookup, h, hb, ih]

theorem NestedFieldNoCopy_of_get (m : Object) (f : String) (rest : List String)
    (v : JSONValue) (h : mapGet m f = some v) :
    NestedFieldNoCopy (.map m) (f :: rest) = NestedFieldNoCopy v rest := by
  simp [NestedFieldNoCopy, h]

theorem NestedFieldNoCopy_of_get_none (m : Object) (f : String) (rest : List String)
    (h : mapGet m f = none) :
    NestedFieldNoCopy (.map m) (f :: rest) = .notFound := by
  simp [NestedFieldNoCopy, h]

/-- Setting a nested field succeeds where the accessor finds a value. -/
theorem SetNestedField_isSome (fields : List String) (hne : fields ≠ []) (m : Object)
    (value v : JSONValue) (h : NestedFieldNoCopy (.map m) fields = .ok v) :
    ∃ m1, SetNestedField m value fields = some m1 := by
  induction fields generalizing m with
  | nil => exact absurd rfl hne
  | cons f rest ih =>
    cases rest with
    | nil => exact ⟨_, rfl⟩
    | cons f2 rest2 =>
      simp only [NestedFieldNoCopy] at h
      cases hg : mapGet m f with
      | none => simp [hg] at h
      | some x =>
        simp only [hg] at h
        cases x with
        | map valMap =>
          obtain ⟨sub, hsub⟩ := ih (by simp) valMap h
          exact ⟨mapSet m f (.map sub), by simp [SetNestedField, hg, hsub]⟩
        | null => simp [NestedFieldNoCopy] at h
        | bool b => simp [NestedFieldNoCopy] at h
        | int64 n => simp [NestedFieldNoCopy] at h
        | float64 n => simp [NestedFieldNoCopy] at h
        | string s => simp [NestedFieldNoCopy] at h
        | slice xs => simp [NestedFieldNoCopy] at h

/-- After setting a nested field, the accessor reads the value back. -/
theorem NestedFieldNoCopy_SetNestedField (fields : List String) (m m1 : Object)
    (value : JSONValue) (h : SetNestedField m value fields = some m1) :
    NestedFieldNoCopy (.map m1) fields = .ok value := by
  induction fields generalizing m m1 with
  | nil => simp [SetNestedField] at h
  | cons f rest ih =>
    cases rest with
    | nil =>
      simp only [SetNestedField, Option.some.injEq] at h
      subst h
      simp [NestedFieldNoCopy, mapGet_mapSet_self]
    | cons f2 rest2 =>
      simp only [SetNestedField] at h
      cases hg : mapGet m f with
      | none =>
        simp only [hg, Option.map_eq_some'] at h
        obtain ⟨sub, hsub, rfl⟩ := h
        rw [NestedFieldNoCopy_of_get _ _ _ _ (mapGet_mapSet_self m f _)]
        exact ih _ _ hsub
      | some x =>
        cases x with
        | map valMap =>
          simp only [hg, Option.map_eq_some'] at h
          obtain ⟨sub, hsub, rfl⟩ := h
          rw [NestedFieldNoCopy_of_get _ _ _ _ (mapGet_mapSet_self m f _)]
          exact ih _ _ hsub
        | null => simp [hg] at h
        | bool b => simp [hg] at h
        | int64 n => simp [hg] at h
        | float64 n => simp [hg] at h
        | string s => simp [hg] at h
        | slice xs => simp [hg] at h

theorem NestedFieldNoCopy_nil_map (f : String) (fs : List String) :
    NestedFieldNoCopy (.map []) (f :: fs) = .notFound := by
  simp [NestedFieldNoCopy, mapGet, List.lookup]

/-- Setting a nested field leaves every path that parts ways with it untouched. -/
theorem NestedFieldNoCopy_frame (fields : List String) (m m1 : Object) (value : JSONValue)
    (h : SetNestedField m value fields = some m1) (other : List String)
    (hd : diverge other fields = true) :
    NestedFieldNoCopy (.map m1) other = NestedFieldNoCopy (.map m) other := by
  induction fields generalizing m m1 other with
  | nil => simp [SetNestedField] at h
  | cons f rest ih =>
    cases other with
    | nil => simp [diverge] at hd
    | cons o os =>
      by_cases hof : o = f
      · subst hof
        simp only [diverge, if_true] at hd
        cases rest with
        | nil => cases os <;> simp [diverge] at hd
        | cons f2 rest2 =>
          cases os with
          | nil => simp [diverge] at hd
          | cons o2 os2 =>
            simp only [SetNestedField] at h
            cases hg : mapGet m o with
            | none =>
              simp only [hg, Option.map_eq_some'] at h
              obtain ⟨sub, hsub, rfl⟩ := h
              have := ih _ _ hsub (o2 :: os2) hd
              rw [NestedFieldNoCopy_nil_map] at this
              rw [NestedFieldNoCopy_of_get _ _ _ _ (mapGet_mapSet_self m o _),
                NestedFieldNoCopy_of_get_none _ _ _ hg]
              exact this
            | some x =>
              cases x with
              | map valMap =>
                simp only [hg, Option.map_eq_some'] at h
                obtain ⟨sub, hsub, rfl⟩ := h
                have := ih _ _ hsub (o2 :: os2) hd
                rw [NestedFieldNoCopy_of_get _ _ _ _ (mapGet_mapSet_self m o _),
                  NestedFieldNoCopy_of_get _ _ _ _ hg]
                exact this
              | null => simp [hg] at h
              | bool b => simp [hg] at h
              | int64 n => simp [hg] at h
              | float64 n => simp [hg] at h
              | string s => simp [hg] at h
              | slice xs => simp [hg] at h
      · have hget : mapGet m1 o = mapGet m o := by
          cases rest with
          | nil =>
            simp only [SetNestedField, Option.some.injEq] at h
            subst h
            exact mapGet_mapSet_ne m f o value hof
          | cons f2 rest2 =>
            simp only [SetNestedField] at h
            cases hg : mapGet m f with
            | none =>
              simp only [hg, Option.map_eq_some'] at h
              obtain ⟨sub, _, rfl⟩ := h
              exact mapGet_mapSet_ne m f o _ hof
            | some x =>
              cases x with
              | map valMap =>
                simp only [hg, Option.map_eq_some'] at h
                obtain ⟨sub, _, rfl⟩ := h
                exact mapGet_mapSet_ne m f o _ hof
              | null => simp [hg] at h
              | bool b => simp [hg] at h
              | int64 n => simp [hg] at h
              | float64 n => simp [hg] at h
              | string s => simp [hg] at h
              | slice xs => simp [hg] at h
        simp [NestedFieldNoCopy, hget]

/-! ## Walking the container list -/

theorem imageOf_eq_some (c : JSONValue) (e : String) (h : imageOf c = some e) :
    ∃ cm, c = .map cm ∧ mapGet cm "image" = some (.string e) := by
  cases c with
  | map cm =>
    refine ⟨cm, rfl, ?_⟩
    simp only [imageOf] at h
    split at h
    · simp only [Option.some.injEq] at h
      subst h
      assumption
    · simp at h
  | null => simp [imageOf] at h
  | bool b => simp [imageOf] at h
  | int64 n => simp [imageOf] at h
  | float64 n => simp [imageOf] at h
  | string s => simp [imageOf] at h
  | slice xs => simp [imageOf] at h

theorem containerLoop_skip_one {σ : Type} (client : Client σ) (n : String) (digest : Hash)
    (result : Object) (done rest : List JSONValue) (c : JSONValue) (w : World σ)
    (hc : Skips n c) :
    containerLoop client n digest result done (c :: rest) w
      = containerLoop client n digest result (done ++ [c]) rest w := by
  obtain ⟨e, he, hne⟩ := hc
  obtain ⟨cm, rfl, hcm⟩ := imageOf_eq_some c e he
  obtain ⟨ps, hps⟩ := parts_head e
  simp [containerLoop, hcm, hps, hne]

theorem containerLoop_skip {σ : Type} (client : Client σ) (n : String) (digest : Hash)
    (result : Object) (pre done rest : List JSONValue) (w : World σ)
    (hpre : ∀ c ∈ pre, Skips n c) :
    containerLoop client n digest result done (pre ++ rest) w
      = containerLoop client n digest result (done ++ pre) rest w := by
  induction pre generalizing done with
  | nil => simp
  | cons c cs ih =>
    rw [List.cons_append, containerLoop_skip_one client n digest result done (cs ++ rest) c w
      (hpre c (List.mem_cons_self _ _)), ih (done ++ [c])
      (fun x hx => hpre x (List.mem_cons_of_mem _ hx))]
    simp

theorem containerLoop_bad {σ : Type} (client : Client σ) (n : String) (digest : Hash)
    (result : Object) (done rest : List JSONValue) (c : JSONValue) (w : World σ)
    (hc : imageOf c = none) :
    containerLoop client n digest result done (c :: rest) w
      = (.halt (.panic .typeAssertion), w) := by
  cases c with
  | map cm =>
    simp only [imageOf] at hc
    cases hg : mapGet cm "image" with
    | none => simp [containerLoop, hg]
    | some x =>
      cases x with
      | string s => simp [hg] at hc
      | null => simp [containerLoop, hg]
      | bool b => simp [containerLoop, hg]
      | int64 k => simp [containerLoop, hg]
      | float64 k => simp [containerLoop, hg]
      | slice xs => simp [containerLoop, hg]
      | map m => simp [containerLoop, hg]
  | null => simp [containerLoop]
  | bool b => simp [containerLoop]
  | int64 k => simp [containerLoop]
  | float64 k => simp [containerLoop]
  | string s => simp [containerLoop]
  | slice xs => simp [containerLoop]

theorem SetNestedField_single (m : Object) (value : JSONValue) (field : String) :
    SetNestedField m value [field] = some (mapSet m field value) := rfl

/-- The closure at the first matching record, already pinned. -/
theorem containerLoop_hit_current {σ : Type} (client : Client σ) (n : String) (digest : Hash)
    (result : Object) (done rest : List JSONValue) (cm : Object) (img : String) (w : World σ)
    (hcm : mapGet cm "image" = some (.string img)) (hn : bareName img = n)
    (htag : currentImageTag (parts img) = latestDigestTag digest) :
    containerLoop client n digest result done (.map cm :: rest) w
      = (.halt (.exit 0), w.emit .printUpToDate) := by
  obtain ⟨ps, hps⟩ := parts_head img
  rw [hps] at htag
  subst hn
  simp [containerLoop, hcm, hps, htag]

/-- The closure at the first matching record, not yet pinned. -/
theorem containerLoop_hit_stale {σ : Type} (client : Client σ) (n : String) (digest : Hash)
    (result : Object) (done rest : List JSONValue) (cm : Object) (img : String)
    (w : World σ)
    (hcm : mapGet cm "image" = some (.string img)) (hn : bareName img = n)
    (htag : currentImageTag (parts img) ≠ latestDigestTag digest) :
    containerLoop client n digest result done (.map cm :: rest) w
      = match SetNestedField result
          (.slice (done ++ .map (mapSet cm "image"
            (.string (n ++ "@" ++ latestDigestTag digest))) :: rest)) containersPath with
        | none => (.halt (.panic .setNestedField), w)
        | some result1 =>
          match client.Update w.st result1 with
          | (some updateErr, st1) =>
            (.halt (.panic (.updateErr updateErr)),
              (World.mk st1 w.trace).emit (.update result1 (some updateErr)))
          | (none, st1) =>
            (.halt (.exit 0),
              ((World.mk st1 w.trace).emit (.update result1 none)).emit
                (.printUpdated img (n ++ "@" ++ latestDigestTag digest))) := by
  obtain ⟨ps, hps⟩ := parts_head img
  rw [hps] at htag
  subst hn
  simp only [containerLoop, hcm, hps, ne_eq, not_true_eq_false, if_false, htag,
    SetNestedField_single]

/-- Shape of a container list as the loop sees it. -/
theorem scan_cases (n : String) (cs : List JSONValue) :
    (∀ c ∈ cs, Skips n c) ∨
    (∃ pre c post, cs = pre ++ c :: post ∧ (∀ x ∈ pre, Skips n x) ∧ imageOf c = none) ∨
    (∃ pre cm post img, cs = pre ++ .map cm :: post ∧ (∀ x ∈ pre, Skips n x) ∧
      mapGet cm "image" = some (.string img) ∧ bareName img = n) := by
  induction cs with
  | nil => left; simp
  | cons c cs ih =>
    cases hi : imageOf c with
    | none => right; left; exact ⟨[], c, cs, rfl, by simp, hi⟩
    | some e =>
      by_cases hb : bareName e = n
      · obtain ⟨cm, rfl, hcm⟩ := imageOf_eq_some c e hi
        right; right; exact ⟨[], cm, cs, e, rfl, by simp, hcm, hb⟩
      · have hs : Skips n c := ⟨e, hi, hb⟩
        rcases ih with h | ⟨pre, x, post, rfl, hpre, hx⟩ | ⟨pre, cm, post, img, rfl, hpre, hcm, hn⟩
        · left
          intro y hy
          rcases List.mem_cons.mp hy with rfl | hy
          · exact hs
          · exact h y hy
        · right; left
          refine ⟨c :: pre, x, post, rfl, ?_, hx⟩
          intro y hy
          rcases List.mem_cons.mp hy with rfl | hy
          · exact hs
          · exact hpre y hy
        · right; right
          refine ⟨c :: pre, cm, post, img, rfl, ?_, hcm, hn⟩
          intro y hy
          rcases List.mem_cons.mp hy with rfl | hy
          · exact hs
          · exact hpre y hy

theorem FirstMatchAt_of_split (n : String) (pre post : List JSONValue) (cm : Object)
    (img : String) (hpre : ∀ x ∈ pre, Skips n x)
    (hcm : mapGet cm "image" = some (.string img)) (hn : bareName img = n) :
    FirstMatchAt (pre ++ .map cm :: post) n pre.length img := by
  refine ⟨?_, ?_, hn⟩
  · intro j hj
    rw [List.getElem?_append_left hj, List.getElem?_eq_getElem hj]
    exact hpre _ (List.getElem_mem hj)
  · rw [List.getElem?_append_right (le_refl _)]
    simp [imageOf, hcm]

theorem FirstMatchAt_split (n : String) (cs : List JSONValue) (i : Nat) (img : String)
    (h : FirstMatchAt cs n i img) :
    ∃ pre cm post, cs = pre ++ .map cm :: post ∧ pre.length = i ∧ (∀ x ∈ pre, Skips n x) ∧
      mapGet cm "image" = some (.string img) ∧ bareName img = n := by
  obtain ⟨hbefore, hat, hn⟩ := h
  obtain ⟨c, hc, hi⟩ := Option.bind_eq_some.mp hat
  obtain ⟨cm, rfl, hcm⟩ := imageOf_eq_some c img hi
  obtain ⟨hlt, hget⟩ := List.getElem?_eq_some.mp hc
  refine ⟨cs.take i, cm, cs.drop (i + 1), ?_, ?_, ?_, hcm, hn⟩
  · rw [← hget, ← List.drop_eq_getElem_cons hlt, List.take_append_drop]
  · simp [List.length_take, Nat.le_of_lt hlt]
  · intro x hx
    obtain ⟨j, hj, rfl⟩ := List.mem_iff_getElem.mp hx
    have hji : j < i := by
      simp only [List.length_take] at hj
      omega
    obtain ⟨e, he, hne⟩ := hbefore j hji
    have hjl : j < cs.length := by omega
    rw [List.getElem?_eq_getElem hjl] at he
    rw [List.getElem_take]
    exact ⟨e, by simpa using he, hne⟩

/-- The first matching entry is unique: position and image string are determined. -/
theorem FirstMatchAt_unique (n : String) (cs : List JSONValue) (i j : Nat) (a b : String)
    (h1 : FirstMatchAt cs n i a) (h2 : FirstMatchAt cs n j b) : i = j ∧ a = b := by
  have key : ∀ (i j : Nat) (a b : String), FirstMatchAt cs n i a → FirstMatchAt cs n j b →
      ¬ i < j := by
    intro i j a b h1 h2 hlt
    obtain ⟨e, he, hne⟩ := h2.1 i hlt
    rw [h1.2.1] at he
    simp only [Option.some.injEq] at he
    subst he
    exact hne h1.2.2
  have hij : i = j := by
    have := key i j a b h1 h2
    have := key j i b a h2 h1
    omega
  subst hij
  refine ⟨rfl, ?_⟩
  have := h1.2.1
  rw [h2.2.1] at this
  simpa using this.symm

/-! ## Whole runs -/

theorem NestedSlice_ok (obj : Object) (fields : List String) (xs : List JSONValue)
    (h : NestedSlice obj fields = .ok xs) :
    NestedFieldNoCopy (.map obj) fields = .ok (.slice xs) := by
  simp only [NestedSlice] at h
  split at h <;> simp_all

theorem NestedSlice_of_field (obj : Object) (fields : List String) (xs : List JSONValue)
    (h : NestedFieldNoCopy (.map obj) fields = .ok (.slice xs)) :
    NestedSlice obj fields = .ok xs := by
  simp [NestedSlice, h]

/-- The closure never returns, so the retry helper runs it exactly once. -/
theorem main_of_closure_halt {σ : Type} (client : Client σ) (n : String) (digest : Hash)
    (w w1 : World σ) (t : Termination)
    (h : closure client n digest w = (.halt t, w1)) :
    main client n digest w = (t, w1) := by
  simp [main, RetryOnConflict, DefaultRetry, OnError, h]

theorem closure_get_error {σ : Type} (client : Client σ) (n : String) (digest : Hash)
    (st st1 : σ) (e : APIError) (hget : client.Get st = (.error e, st1)) :
    closure client n digest (World.mk st [])
      = (.halt (.panic (.getFailed e)), World.mk st1 [.get (.error e)]) := by
  simp [closure, hget, World.emit]

theorem closure_no_containers {σ : Type} (client : Client σ) (n : String) (digest : Hash)
    (st st1 : σ) (result : Object) (hget : client.Get st = (.ok result, st1))
    (hns : ∀ cs, NestedSlice result containersPath ≠ .ok cs) :
    closure client n digest (World.mk st [])
      = (.halt (.panic .containersNotFound), World.mk st1 [.get (.ok result)]) := by
  simp only [closure, hget]
  cases h : NestedSlice result containersPath with
  | ok v => exact absurd h (hns v)
  | notFound => simp [World.emit]
  | error => simp [World.emit]

theorem closure_no_match {σ : Type} (client : Client σ) (n : String) (digest : Hash)
    (st st1 : σ) (result : Object) (cs : List JSONValue)
    (hget : client.Get st = (.ok result, st1))
    (hns : NestedSlice result containersPath = .ok cs) (hall : ∀ c ∈ cs, Skips n c) :
    closure client n digest (World.mk st [])
      = (.halt (.panic .containerNotFound), World.mk st1 [.get (.ok result)]) := by
  simp only [closure, hget, hns]
  have := containerLoop_skip client n digest result cs [] []
    ((World.mk st1 ([] : List Event)).emit (.get (.ok result))) hall
  rw [List.append_nil] at this
  rw [this]
  simp [containerLoop, World.emit]

theorem closure_bad_entry {σ : Type} (client : Client σ) (n : String) (digest : Hash)
    (st st1 : σ) (result : Object) (pre post : List JSONValue) (c : JSONValue)
    (hget : client.Get st = (.ok result, st1))
    (hns : NestedSlice result containersPath = .ok (pre ++ c :: post))
    (hpre : ∀ x ∈ pre, Skips n x) (hc : imageOf c = none) :
    closure client n digest (World.mk st [])
      = (.halt (.panic .typeAssertion), World.mk st1 [.get (.ok result)]) := by
  simp only [closure, hget, hns]
  rw [containerLoop_skip client n digest result pre [] (c :: post) _ hpre,
    containerLoop_bad client n digest result _ post c _ hc]
  simp [World.emit]

/-- The closure on a document whose first matching record sits after `pre`. -/
theorem closure_first_match {σ : Type} (client : Client σ) (n : String) (digest : Hash)
    (st st1 : σ) (result : Object) (pre post : List JSONValue) (cm : Object) (img : String)
    (hget : client.Get st = (.ok result, st1))
    (hns : NestedSlice result containersPath = .ok (pre ++ .map cm :: post))
    (hpre : ∀ x ∈ pre, Skips n x)
    (hcm : mapGet cm "image" = some (.string img)) (hn : bareName img = n) :
    ∃ result1,
      SetNestedField result
        (.slice (pre ++ .map (mapSet cm "image"
          (.string (n ++ "@" ++ latestDigestTag digest))) :: post)) containersPath
        = some result1 ∧
      closure client n digest (World.mk st []) =
        if currentImageTag (parts img) = latestDigestTag digest then
          (.halt (.exit 0), World.mk st1 [.get (.ok result), .printUpToDate])
        else
          match client.Update st1 result1 with
          | (some updateErr, st2) =>
            (.halt (.panic (.updateErr updateErr)),
              World.mk st2 [.get (.ok result), .update result1 (some updateErr)])
          | (none, st2) =>
            (.halt (.exit 0),
              World.mk st2 [.get (.ok result), .update result1 none,
                .printUpdated img (n ++ "@" ++ latestDigestTag digest)]) := by
  obtain ⟨result1, hset⟩ := SetNestedField_isSome containersPath (by decide) result
    (.slice (pre ++ .map (mapSet cm "image"
      (.string (n ++ "@" ++ latestDigestTag digest))) :: post)) _
    (NestedSlice_ok _ _ _ hns)
  refine ⟨result1, hset, ?_⟩
  simp only [closure, hget, hns]
  rw [containerLoop_skip client n digest result pre [] (.map cm :: post) _ hpre]
  by_cases htag : currentImageTag (parts img) = latestDigestTag digest
  · rw [containerLoop_hit_current client n digest result _ post cm img _ hcm hn htag]
    simp [htag, World.emit]
  · rw [containerLoop_hit_stale client n digest result _ post cm img _ hcm hn htag]
    simp only [List.nil_append, hset, htag, if_false, World.emit]
    cases hu : client.Update st1 result1 with
    | mk r st2 => cases r <;> simp

theorem containerLoop_halts {σ : Type} (client : Client σ) (n : String) (digest : Hash)
    (result : Object) (rest done : List JSONValue) (w : World σ) :
    ∃ t w1, containerLoop client n digest result done rest w = (.halt t, w1) ∧
      EndsInside t := by
  induction rest generalizing done with
  | nil => exact ⟨_, _, rfl, Or.inr ⟨_, rfl, by simp⟩⟩
  | cons c cs ih =>
    cases hi : imageOf c with
    | none =>
      exact ⟨_, _, containerLoop_bad client n digest result done cs c w hi,
        Or.inr ⟨_, rfl, by simp⟩⟩
    | some e =>
      by_cases hb : bareName e = n
      · obtain ⟨cm, rfl, hcm⟩ := imageOf_eq_some c e hi
        by_cases htag : currentImageTag (parts e) = latestDigestTag digest
        · exact ⟨_, _, containerLoop_hit_current client n digest result done cs cm e w
            hcm hb htag, Or.inl rfl⟩
        · rw [containerLoop_hit_stale client n digest result done cs cm e w hcm hb htag]
          cases SetNestedField result
            (.slice (done ++ .map (mapSet cm "image"
              (.string (n ++ "@" ++ latestDigestTag digest))) :: cs)) containersPath with
          | none => exact ⟨_, _, rfl, Or.inr ⟨_, rfl, by simp⟩⟩
          | some result1 =>
            cases hu : client.Update w.st result1 with
            | mk r st2 =>
              cases r with
              | none => simp only [hu]; exact ⟨_, _, rfl, Or.inl rfl⟩
              | some err => simp only [hu]; exact ⟨_, _, rfl, Or.inr ⟨_, rfl, by simp⟩⟩
      · rw [containerLoop_skip_one client n digest result done cs c w ⟨e, hi, hb⟩]
        exact ih (done ++ [c])

/-- Every path through the closure ends the process. -/
theorem closure_halts {σ : Type} (client : Client σ) (n : String) (digest : Hash)
    (w : World σ) :
    ∃ t w1, closure client n digest w = (.halt t, w1) ∧ EndsInside t := by
  unfold closure
  cases hg : client.Get w.st with
  | mk r st1 =>
    cases r with
    | error e => exact ⟨_, _, rfl, Or.inr ⟨_, rfl, by simp⟩⟩
    | ok result =>
      cases hns : NestedSlice result containersPath with
      | ok cs =>
        simp only [hns]
        exact containerLoop_halts client n digest result cs [] _
      | notFound => simp only [hns]; exact ⟨_, _, rfl, Or.inr ⟨_, rfl, by simp⟩⟩
      | error => simp only [hns]; exact ⟨_, _, rfl, Or.inr ⟨_, rfl, by simp⟩⟩

/-- The five ways a run can go, with the state and trace it ends in. -/
theorem main_cases {σ : Type} (client : Client σ) (n : String) (digest : Hash) (st : σ) :
    (∃ e st1, client.Get st = (.error e, st1) ∧
      main client n digest (World.mk st [])
        = (.panic (.getFailed e), World.mk st1 [.get (.error e)])) ∨
    (∃ result st1, client.Get st = (.ok result, st1) ∧
      (∀ cs, NestedSlice result containersPath ≠ .ok cs) ∧
      main client n digest (World.mk st [])
        = (.panic .containersNotFound, World.mk st1 [.get (.ok result)])) ∨
    (∃ result st1 cs, client.Get st = (.ok result, st1) ∧
      NestedSlice result containersPath = .ok cs ∧ (∀ c ∈ cs, Skips n c) ∧
      main client n digest (World.mk st [])
        = (.panic .containerNotFound, World.mk st1 [.get (.ok result)])) ∨
    (∃ result st1 pre c post, client.Get st = (.ok result, st1) ∧
      NestedSlice result containersPath = .ok (pre ++ c :: post) ∧
      (∀ x ∈ pre, Skips n x) ∧ imageOf c = none ∧
      main client n digest (World.mk st [])
        = (.panic .typeAssertion, World.mk st1 [.get (.ok result)])) ∨
    (∃ result st1 pre cm post img result1, client.Get st = (.ok result, st1) ∧
      NestedSlice result containersPath = .ok (pre ++ .map cm :: post) ∧
      (∀ x ∈ pre, Skips n x) ∧ mapGet cm "image" = some (.string img) ∧ bareName img = n ∧
      SetNestedField result
        (.slice (pre ++ .map (mapSet cm "image"
          (.string (n ++ "@" ++ latestDigestTag digest))) :: post)) containersPath
        = some result1 ∧
      main client n digest (World.mk st []) =
        if currentImageTag (parts img) = latestDigestTag digest then
          (.exit 0, World.mk st1 [.get (.ok result), .printUpToDate])
        else
          match client.Update st1 result1 with
          | (some updateErr, st2) =>
            (.panic (.updateErr updateErr),
              World.mk st2 [.get (.ok result), .update result1 (some updateErr)])
          | (none, st2) =>
            (.exit 0,
              World.mk st2 [.get (.ok result), .update result1 none,
                .printUpdated img (n ++ "@" ++ latestDigestTag digest)])) := by
  cases hg : client.Get st with
  | mk r st1 =>
    cases r with
    | error e =>
      left
      exact ⟨e, st1, rfl, main_of_closure_halt _ _ _ _ _ _
        (closure_get_error client n digest st st1 e hg)⟩
    | ok result =>
      right
      cases hns : NestedSlice result containersPath with
      | notFound =>
        left
        exact ⟨result, st1, rfl, by simp [hns], main_of_closure_halt _ _ _ _ _ _
          (closure_no_containers client n digest st st1 result hg (by simp [hns]))⟩
      | error =>
        left
        exact ⟨result, st1, rfl, by simp [hns], main_of_closure_halt _ _ _ _ _ _
          (closure_no_containers client n digest st st1 result hg (by simp [hns]))⟩
      | ok cs =>
        right
        rcases scan_cases n cs with h | ⟨pre, c, post, rfl, hpre, hc⟩ |
          ⟨pre, cm, post, img, rfl, hpre, hcm, hn⟩
        · left
          exact ⟨result, st1, cs, rfl, hns, h, main_of_closure_halt _ _ _ _ _ _
            (closure_no_match client n digest st st1 result cs hg hns h)⟩
        · right; left
          exact ⟨result, st1, pre, c, post, rfl, hns, hpre, hc, main_of_closure_halt _ _ _ _ _ _
            (closure_bad_entry client n digest st st1 result pre post c hg hns hpre hc)⟩
        · right; right
          obtain ⟨result1, hset, hcl⟩ := closure_first_match client n digest st st1 result
            pre post cm img hg hns hpre hcm hn
          refine ⟨result, st1, pre, cm, post, img, result1, rfl, hns, hpre, hcm, hn, hset, ?_⟩
          by_cases htag : currentImageTag (parts img) = latestDigestTag digest
          · rw [if_pos htag] at hcl
            rw [if_pos htag]
            exact main_of_closure_halt _ _ _ _ _ _ hcl
          · rw [if_neg htag] at hcl
            rw [if_neg htag]
            cases hu : client.Update st1 result1 with
            | mk r st2 =>
              rw [hu] at hcl
              cases r with
              | none => exact main_of_closure_halt _ _ _ _ _ _ hcl
              | some err => exact main_of_closure_halt _ _ _ _ _ _ hcl

/-- A run on a document whose first matching entry is entry `i`. -/
theorem main_first_match {σ : Type} (client : Client σ) (n : String) (digest : Hash)
    (st st1 : σ) (result : Object) (cs : List JSONValue) (i : Nat) (img : String)
    (hget : client.Get st = (.ok result, st1))
    (hns : NestedSlice result containersPath = .ok cs) (hfm : FirstMatchAt cs n i img) :
    ∃ pre cm post result1, cs = pre ++ .map cm :: post ∧ pre.length = i ∧
      mapGet cm "image" = some (.string img) ∧
      SetNestedField result
        (.slice (pre ++ .map (mapSet cm "image"
          (.string (n ++ "@" ++ latestDigestTag digest))) :: post)) containersPath
        = some result1 ∧
      main client n digest (World.mk st []) =
        if currentImageTag (parts img) = latestDigestTag digest then
          (.exit 0, World.mk st1 [.get (.ok result), .printUpToDate])
        else
          match client.Update st1 result1 with
          | (some updateErr, st2) =>
            (.panic (.updateErr updateErr),
              World.mk st2 [.get (.ok result), .update result1 (some updateErr)])
          | (none, st2) =>
            (.exit 0,
              World.mk st2 [.get (.ok result), .update result1 none,
                .printUpdated img (n ++ "@" ++ latestDigestTag digest)]) := by
  obtain ⟨pre, cm, post, rfl, hlen, hpre, hcm, hn⟩ := FirstMatchAt_split n cs i img hfm
  obtain ⟨result1, hset, hcl⟩ := closure_first_match client n digest st st1 result
    pre post cm img hget hns hpre hcm hn
  refine ⟨pre, cm, post, result1, rfl, hlen, hcm, hset, ?_⟩
  by_cases htag : currentImageTag (parts img) = latestDigestTag digest
  · rw [if_pos htag] at hcl
    rw [if_pos htag]
    exact main_of_closure_halt _ _ _ _ _ _ hcl
  · rw [if_neg htag] at hcl
    rw [if_neg htag]
    cases hu : client.Update st1 result1 with
    | mk r st2 =>
      rw [hu] at hcl
      cases r with
      | none => exact main_of_closure_halt _ _ _ _ _ _ hcl
      | some err => exact main_of_closure_halt _ _ _ _ _ _ hcl

theorem not_FirstMatchAt_of_skips (n : String) (cs : List JSONValue) (i : Nat) (img : String)
    (hall : ∀ c ∈ cs, Skips n c) : ¬ FirstMatchAt cs n i img := by
  intro h
  obtain ⟨c, hc, hi⟩ := Option.bind_eq_some.mp h.2.1
  obtain ⟨e, he, hne⟩ := hall c (List.getElem?_mem hc)
  rw [hi] at he
  simp only [Option.some.injEq] at he
  subst he
  exact hne h.2.2

theorem not_FirstMatchAt_of_bad (n : String) (pre post : List JSONValue) (c : JSONValue)
    (i : Nat) (img : String) (hpre : ∀ x ∈ pre, Skips n x) (hc : imageOf c = none) :
    ¬ FirstMatchAt (pre ++ c :: post) n i img := by
  intro h
  rcases Nat.lt_trichotomy i pre.length with hlt | heq | hgt
  · have h1 := h.2.1
    rw [List.getElem?_append_left hlt, List.getElem?_eq_getElem hlt] at h1
    obtain ⟨e, he, hne⟩ := hpre _ (List.getElem_mem hlt)
    simp only [Option.bind_eq_bind, Option.some_bind] at h1
    rw [h1] at he
    simp only [Option.some.injEq] at he
    subst he
    exact hne h.2.2
  · have h1 := h.2.1
    rw [heq, List.getElem?_append_right (le_refl _)] at h1
    simp [hc] at h1
  · obtain ⟨e, he, _⟩ := h.1 pre.length hgt
    rw [List.getElem?_append_right (le_refl _)] at he
    simp [hc] at he

theorem newImageReference_eq (n : String) (digest : Hash) :
    n ++ "@" ++ latestDigestTag digest = n ++ "@sha256:" ++ digest.Hex := by
  apply String.ext
  simp [latestDigestTag, String.data_append]

/-- What the accessor reads in the document the closure submits. -/
theorem NestedSlice_submitted (result result1 : Object) (xs : List JSONValue)
    (hset : SetNestedField result (.slice xs) containersPath = some result1) :
    NestedSlice result1 containersPath = .ok xs :=
  NestedSlice_of_field _ _ _ (NestedFieldNoCopy_SetNestedField _ _ _ _ hset)

theorem imageOf_mapSet (cm : Object) (s : String) :
    imageOf (.map (mapSet cm "image" (.string s))) = some s := by
  simp [imageOf, mapGet_mapSet_self]

theorem getElem?_replace (pre post : List JSONValue) (x y : JSONValue) (j : Nat)
    (hj : j ≠ pre.length) : (pre ++ y :: post)[j]? = (pre ++ x :: post)[j]? := by
  rcases Nat.lt_or_gt_of_ne hj with h | h
  · rw [List.getElem?_append_left h, List.getElem?_append_left h]
  · rw [List.getElem?_append_right (le_of_lt h), List.getElem?_append_right (le_of_lt h)]
    obtain ⟨k, hk⟩ : ∃ k, j - pre.length = k + 1 := ⟨j - pre.length - 1, by omega⟩
    rw [hk]
    simp

theorem latestDigestTag_eq_digestForm_iff (digest : Hash) :
    "sha256:" ++ digest.Hex = digest.digestForm ↔ digest.Algorithm = "sha256" := by
  constructor
  · intro h
    have hd := congrArg String.data h
    simp only [Hash.digestForm, String.data_append] at hd
    have h1 : (['s', 'h', 'a', '2', '5', '6', ':'] : List Char)
        = ['s', 'h', 'a', '2', '5', '6'] ++ [':'] := rfl
    rw [h1] at hd
    have h2 := List.append_cancel_right hd
    have h3 := List.append_cancel_right h2
    exact (String.ext h3).symm
  · intro h
    apply String.ext
    simp only [Hash.digestForm, String.data_append, h]
    rfl

/-- The three entry shapes on well-behaved strings: a bare name and a tag without
':' and '@', and a digest string without '@' after a name without '@'. -/
theorem parts_three_shapes (n t d : String) :
    (':' ∉ n.data → '@' ∉ n.data → parts n = [n] ∧ currentImageTag (parts n) = "latest") ∧
    (':' ∉ n.data → '@' ∉ n.data → ':' ∉ t.data → '@' ∉ t.data →
      parts (n ++ ":" ++ t) = [n, t] ∧ currentImageTag (parts (n ++ ":" ++ t)) = t) ∧
    ('@' ∉ n.data → '@' ∉ d.data →
      parts (n ++ "@" ++ d) = [n, d] ∧ currentImageTag (parts (n ++ "@" ++ d)) = d) := by
  refine ⟨?_, ?_, ?_⟩
  · intro hc ha
    have hp : parts n = [n] := by
      rw [parts_of_no_at n ha, Split, splitChars_of_not_mem ':' _ hc]
      rfl
    rw [hp]
    exact ⟨rfl, rfl⟩
  · intro hc ha htc hta
    have hd : (n ++ ":" ++ t).data = n.data ++ ':' :: t.data := by
      simp [String.data_append]
    have hna : '@' ∉ (n ++ ":" ++ t).data := by
      rw [hd]
      simp only [List.mem_append, List.mem_cons, not_or]
      exact ⟨ha, by decide, hta⟩
    have hp : parts (n ++ ":" ++ t) = [n, t] := by
      rw [parts_of_no_at _ hna, Split, hd, splitChars_append ':' _ _ hc,
        splitChars_of_not_mem ':' _ htc]
      rfl
    rw [hp]
    exact ⟨rfl, rfl⟩
  · intro ha hda
    have hd : (n ++ "@" ++ d).data = n.data ++ '@' :: d.data := by
      simp [String.data_append]
    have hat : '@' ∈ (n ++ "@" ++ d).data := by
      rw [hd]; simp
    have hp : parts (n ++ "@" ++ d) = [n, d] := by
      rw [parts_of_at _ hat, Split, hd, splitChars_append '@' _ _ ha,
        splitChars_of_not_mem '@' _ hda]
      rfl
    rw [hp]
    exact ⟨rfl, rfl⟩

/-! ## Claims -/

/-- C1. Rewrite of a tag-form entry: when the first container entry whose bare name
equals `n` is the string `n:t` and the store accepts the submit, one run submits
exactly one document, in which that entry reads `n@sha256:h`; the write is
accepted, the run prints the "updated" line and exits with status 0 (Updated). -/
theorem C1_tag_form_rewrite {σ : Type} (client : Client σ) (n t : String) (digest : Hash)
    (st st1 : σ) (result : Object) (cs : List JSONValue) (i : Nat)
    (hget : client.Get st = (.ok result, st1))
    (hns : NestedSlice result containersPath = .ok cs)
    (hfm : FirstMatchAt cs n i (n ++ ":" ++ t))
    (haccept : ∀ obj, (client.Update st1 obj).1 = none) :
    ∃ result1 cs1,
      (main client n digest (World.mk st [])).2.trace
        = [.get (.ok result), .update result1 none,
            .printUpdated (n ++ ":" ++ t) (n ++ "@sha256:" ++ digest.Hex)] ∧
      NestedSlice result1 containersPath = .ok cs1 ∧
      cs1[i]?.bind imageOf = some (n ++ "@sha256:" ++ digest.Hex) ∧
      (main client n digest (World.mk st [])).1 = .exit 0 ∧
      outcome (main client n digest (World.mk st [])).1
        (main client n digest (World.mk st [])).2.trace = .Updated ∧
      successfulWrites (main client n digest (World.mk st [])).2.trace = 1 ∧
      submits (main client n digest (World.mk st [])).2.trace = 1 ∧
      fetches (main client n digest (World.mk st [])).2.trace = 1 := by
  obtain ⟨pre, cm, post, result1, rfl, hlen, hcm, hset, hmain⟩ :=
    main_first_match client n digest st st1 result cs i (n ++ ":" ++ t) hget hns hfm
  have htag := currentImageTag_ne_of_no_at (n ++ ":" ++ t) digest
    (no_at_of_tag_form n t hfm.2.2)
  rw [if_neg htag] at hmain
  have hacc := haccept result1
  cases hu : client.Update st1 result1 with
  | mk r st2 =>
    rw [hu] at hacc hmain
    simp only at hacc
    subst hacc
    simp only at hmain
    refine ⟨result1, _, ?_, NestedSlice_submitted _ _ _ hset, ?_, ?_⟩
    · rw [hmain, newImageReference_eq]
    · rw [← hlen, List.getElem?_append_right (le_refl _)]
      simp [imageOf_mapSet, newImageReference_eq]
    · rw [hmain]
      simp [outcome, successfulWrites, submits, fetches]

/-- C1 at the scenario of the specification: entry `registry.example/app:v3`. -/
theorem C1_tag_form_rewrite_witness :
    ∃ result1 cs1,
      (main (fixedClient (deployment [container "app" "registry.example/app:v3"]) none)
          appName appDigest (World.mk () [])).2.trace
        = [.get (.ok (deployment [container "app" "registry.example/app:v3"])),
            .update result1 none,
            .printUpdated (appName ++ ":" ++ "v3") (appName ++ "@sha256:" ++ appDigest.Hex)] ∧
      NestedSlice result1 containersPath = .ok cs1 ∧
      cs1[0]?.bind imageOf = some (appName ++ "@sha256:" ++ appDigest.Hex) ∧
      (main (fixedClient (deployment [container "app" "registry.example/app:v3"]) none)
          appName appDigest (World.mk () [])).1 = .exit 0 ∧
      outcome
        (main (fixedClient (deployment [container "app" "registry.example/app:v3"]) none)
          appName appDigest (World.mk () [])).1
        (main (fixedClient (deployment [container "app" "registry.example/app:v3"]) none)
          appName appDigest (World.mk () [])).2.trace = .Updated ∧
      successfulWrites
        (main (fixedClient (deployment [container "app" "registry.example/app:v3"]) none)
          appName appDigest (World.mk () [])).2.trace = 1 ∧
      submits
        (main (fixedClient (deployment [container "app" "registry.example/app:v3"]) none)
          appName appDigest (World.mk () [])).2.trace = 1 ∧
      fetches
        (main (fixedClient (deployment [container "app" "registry.example/app:v3"]) none)
          appName appDigest (World.mk () [])).2.trace = 1 :=
  C1_tag_form_rewrite (fixedClient (deployment [container "app" "registry.example/app:v3"]) none)
    appName "v3" appDigest () () (deployment [container "app" "registry.example/app:v3"])
    [container "app" "registry.example/app:v3"] 0 rfl rfl
    ⟨fun j hj => absurd hj (Nat.not_lt_zero j), rfl, by decide⟩ (fun _ => rfl)

/-- C2. Compare step: on a fetched resource whose first matching entry reads `img`,
the run stops as AlreadyCurrent with no submit exactly when the suffix extracted
from `img` is the string "sha256:" followed by the hex value of the target
digest; then the trace is the fetch and the "up to date" line. In every other
case exactly one submit is attempted. -/
theorem C2_compare {σ : Type} (client : Client σ) (n : String) (digest : Hash)
    (st st1 : σ) (result : Object) (cs : List JSONValue) (i : Nat) (img : String)
    (hget : client.Get st = (.ok result, st1))
    (hns : NestedSlice result containersPath = .ok cs)
    (hfm : FirstMatchAt cs n i img) :
    ((outcome (main client n digest (World.mk st [])).1
          (main client n digest (World.mk st [])).2.trace = .AlreadyCurrent ∧
        submits (main client n digest (World.mk st [])).2.trace = 0) ↔
      currentImageTag (parts img) = "sha256:" ++ digest.Hex) ∧
    (currentImageTag (parts img) = "sha256:" ++ digest.Hex →
      main client n digest (World.mk st [])
        = (.exit 0, World.mk st1 [.get (.ok result), .printUpToDate])) ∧
    (currentImageTag (parts img) ≠ "sha256:" ++ digest.Hex →
      submits (main client n digest (World.mk st [])).2.trace = 1) := by
  obtain ⟨pre, cm, post, result1, rfl, hlen, hcm, hset, hmain⟩ :=
    main_first_match client n digest st st1 result cs i img hget hns hfm
  rw [hmain]
  by_cases htag : currentImageTag (parts img) = latestDigestTag digest
  · rw [if_pos htag]
    exact ⟨⟨fun _ => htag, fun _ => by simp [outcome, submits]⟩, fun _ => rfl,
      fun h => absurd htag h⟩
  · rw [if_neg htag]
    cases hu : client.Update st1 result1 with
    | mk r st2 =>
      cases r with
      | none =>
        exact ⟨⟨fun h => by simp [submits] at h, fun h => absurd h htag⟩,
          fun h => absurd h htag, fun _ => by simp [submits]⟩
      | some err =>
        exact ⟨⟨fun h => by simp [submits] at h, fun h => absurd h htag⟩,
          fun h => absurd h htag, fun _ => by simp [submits]⟩

/-- C2 at the scenario of the specification: the entry is already pinned. -/
theorem C2_compare_witness :
    ((outcome
          (main (fixedClient (deployment [container "app" "registry.example/app@sha256:aa11"])
            none) appName appDigest (World.mk () [])).1
          (main (fixedClient (deployment [container "app" "registry.example/app@sha256:aa11"])
            none) appName appDigest (World.mk () [])).2.trace = .AlreadyCurrent ∧
        submits
          (main (fixedClient (deployment [container "app" "registry.example/app@sha256:aa11"])
            none) appName appDigest (World.mk () [])).2.trace = 0) ↔
      currentImageTag (parts "registry.example/app@sha256:aa11") = "sha256:" ++ appDigest.Hex) ∧
    (currentImageTag (parts "registry.example/app@sha256:aa11") = "sha256:" ++ appDigest.Hex →
      main (fixedClient (deployment [container "app" "registry.example/app@sha256:aa11"])
          none) appName appDigest (World.mk () [])
        = (.exit 0, World.mk ()
            [.get (.ok (deployment [container "app" "registry.example/app@sha256:aa11"])),
              .printUpToDate])) ∧
    (currentImageTag (parts "registry.example/app@sha256:aa11") ≠ "sha256:" ++ appDigest.Hex →
      submits
        (main (fixedClient (deployment [container "app" "registry.example/app@sha256:aa11"])
          none) appName appDigest (World.mk () [])).2.trace = 1) :=
  C2_compare (fixedClient (deployment [container "app" "registry.example/app@sha256:aa11"]) none)
    appName appDigest () () (deployment [container "app" "registry.example/app@sha256:aa11"])
    [container "app" "registry.example/app@sha256:aa11"] 0 "registry.example/app@sha256:aa11"
    rfl rfl ⟨fun j hj => absurd hj (Nat.not_lt_zero j), rfl, by decide⟩

/-- C3. Idempotence across two runs: let a first run end with exit status 0
(Updated or AlreadyCurrent), and let a second run with the same logical name and
the same digest (whose hex value has no '@') fetch a resource whose container
list is the one the store holds after the first run (the accepted submit, or the
fetched document when nothing was written). Then both runs match the same
container index, and the second run prints "up to date", exits with status 0
(AlreadyCurrent) and submits nothing. -/
theorem C3_idempotent {σ : Type} (client : Client σ) (n : String) (digest : Hash) (st : σ)
    (result2 : Object) (st3 : σ)
    (hhex : '@' ∉ digest.Hex.data)
    (hok : (main client n digest (World.mk st [])).1 = .exit 0)
    (hget2 : client.Get (main client n digest (World.mk st [])).2.st = (.ok result2, st3))
    (hstored : ∀ d, storedAfter (main client n digest (World.mk st [])).2.trace = some d →
      NestedSlice result2 containersPath = NestedSlice d containersPath) :
    (∃ result st1 cs cs2 i a b, client.Get st = (.ok result, st1) ∧
      NestedSlice result containersPath = .ok cs ∧ FirstMatchAt cs n i a ∧
      NestedSlice result2 containersPath = .ok cs2 ∧ FirstMatchAt cs2 n i b) ∧
    main client n digest (World.mk (main client n digest (World.mk st [])).2.st [])
      = (.exit 0, World.mk st3 [.get (.ok result2), .printUpToDate]) ∧
    outcome
      (main client n digest (World.mk (main client n digest (World.mk st [])).2.st [])).1
      (main client n digest (World.mk (main client n digest (World.mk st [])).2.st [])).2.trace
      = .AlreadyCurrent ∧
    submits
      (main client n digest (World.mk (main client n digest (World.mk st [])).2.st [])).2.trace
      = 0 ∧
    successfulWrites
      (main client n digest (World.mk (main client n digest (World.mk st [])).2.st [])).2.trace
      = 0 := by
  have finish : ∀ (s : σ) (cs2 : List JSONValue) (i : Nat) (b : String),
      client.Get s = (.ok result2, st3) → NestedSlice result2 containersPath = .ok cs2 →
      FirstMatchAt cs2 n i b → currentImageTag (parts b) = latestDigestTag digest →
      main client n digest (World.mk s [])
        = (.exit 0, World.mk st3 [.get (.ok result2), .printUpToDate]) := by
    intro s cs2 i b hg hn2 hf hp
    obtain ⟨_, _, _, _, _, _, _, _, hm⟩ :=
      main_first_match client n digest s st3 result2 cs2 i b hg hn2 hf
    rw [hm, if_pos hp]
  rcases main_cases client n digest st with ⟨e, st1, hg, h⟩ | ⟨result, st1, hg, hns, h⟩ |
    ⟨result, st1, cs, hg, hns, hall, h⟩ | ⟨result, st1, pre, c, post, hg, hns, hpre, hc, h⟩ |
    ⟨result, st1, pre, cm, post, img, result1, hg, hns, hpre, hcm, hn, hset, h⟩
  · rw [h] at hok; simp at hok
  · rw [h] at hok; simp at hok
  · rw [h] at hok; simp at hok
  · rw [h] at hok; simp at hok
  · have hfm := FirstMatchAt_of_split n pre post cm img hpre hcm hn
    by_cases htag : currentImageTag (parts img) = latestDigestTag digest
    · rw [if_pos htag] at h
      rw [h] at hget2 hstored ⊢
      have hns2 : NestedSlice result2 containersPath = .ok (pre ++ .map cm :: post) := by
        rw [hstored result (by simp [storedAfter]), hns]
      have hm := finish st1 _ _ img hget2 hns2 hfm htag
      refine ⟨⟨result, st1, _, _, _, img, img, hg, hns, hfm, hns2, hfm⟩, hm, ?_⟩
      rw [hm]
      simp [outcome, submits, successfulWrites]
    · rw [if_neg htag] at h
      cases hu : client.Update st1 result1 with
      | mk r st2 =>
        rw [hu] at h
        cases r with
        | some err => rw [h] at hok; simp at hok
        | none =>
          simp only at h
          rw [h] at hget2 hstored ⊢
          have hnat : '@' ∉ n.data := by
            have := bareName_no_at img
            rwa [hn] at this
          have hns2 : NestedSlice result2 containersPath
              = .ok (pre ++ .map (mapSet cm "image"
                  (.string (n ++ "@" ++ latestDigestTag digest))) :: post) := by
            rw [hstored result1 (by simp [storedAfter]), NestedSlice_submitted _ _ _ hset]
          have hfm2 := FirstMatchAt_of_split n pre post
            (mapSet cm "image" (.string (n ++ "@" ++ latestDigestTag digest)))
            (n ++ "@" ++ latestDigestTag digest) hpre (mapGet_mapSet_self _ _ _)
            (bareName_pinned n digest hnat hhex)
          have hp : currentImageTag (parts (n ++ "@" ++ latestDigestTag digest))
              = latestDigestTag digest := by
            rw [parts_pinned n digest hnat hhex]
            rfl
          have hm := finish st2 _ _ _ hget2 hns2 hfm2 hp
          refine ⟨⟨result, st1, _, _, _, img, _, hg, hns, hfm, hns2, hfm2⟩, hm, ?_⟩
          rw [hm]
          simp [outcome, submits, successfulWrites]

/-- C3 at a store that keeps what it is sent: the first run pins the tag-form
entry, the second finds it pinned. -/
theorem C3_idempotent_witness :
    (∃ result st1 cs cs2 i a b, memoryClient.Get
        (deployment [container "app" "registry.example/app:v3"]) = (.ok result, st1) ∧
      NestedSlice result containersPath = .ok cs ∧ FirstMatchAt cs appName i a ∧
      NestedSlice (deployment [container "app" "registry.example/app@sha256:aa11"])
        containersPath = .ok cs2 ∧ FirstMatchAt cs2 appName i b) ∧
    main memoryClient appName appDigest
        (World.mk (main memoryClient appName appDigest
          (World.mk (deployment [container "app" "registry.example/app:v3"]) [])).2.st [])
      = (.exit 0, World.mk (deployment [container "app" "registry.example/app@sha256:aa11"])
          [.get (.ok (deployment [container "app" "registry.example/app@sha256:aa11"])),
            .printUpToDate]) ∧
    outcome
      (main memoryClient appName appDigest
        (World.mk (main memoryClient appName appDigest
          (World.mk (deployment [container "app" "registry.example/app:v3"]) [])).2.st [])).1
      (main memoryClient appName appDigest
        (World.mk (main memoryClient appName appDigest
          (World.mk (deployment [container "app" "registry.example/app:v3"]) [])).2.st
          [])).2.trace
      = .AlreadyCurrent ∧
    submits
      (main memoryClient appName appDigest
        (World.mk (main memoryClient appName appDigest
          (World.mk (deployment [container "app" "registry.example/app:v3"]) [])).2.st
          [])).2.trace
      = 0 ∧
    successfulWrites
      (main memoryClient appName appDigest
        (World.mk (main memoryClient appName appDigest
          (World.mk (deployment [container "app" "registry.example/app:v3"]) [])).2.st
          [])).2.trace
      = 0 :=
  C3_idempotent memoryClient appName appDigest
    (deployment [container "app" "registry.example/app:v3"])
    (deployment [container "app" "registry.example/app@sha256:aa11"])
    (deployment [container "app" "registry.example/app@sha256:aa11"])
    (by decide) rfl rfl (fun _ hd => Option.some.inj hd ▸ rfl)

/-- C4, the code at a store that answers the first submit with a version conflict
and would accept the next one, and at a store that always answers with a
conflict: under the retry policy of 5 steps the run panics with the conflict
error after one fetch and one submit, with no successful write; it neither
fetches again nor reaches the "update failed" panic. -/
theorem C4_conflict_aborts :
    DefaultRetry.Steps = 5 ∧
    (∀ k, main (conflictingClient (deployment [container "app" "registry.example/app:v3"])
          (k + 1)) appName appDigest (World.mk 0 [])
      = (.panic (.updateErr .conflict), World.mk 1
          [.get (.ok (deployment [container "app" "registry.example/app:v3"])),
            .update (deployment [container "app" "registry.example/app@sha256:aa11"])
              (some .conflict)])) ∧
    (∀ k, fetches (main (conflictingClient
        (deployment [container "app" "registry.example/app:v3"]) (k + 1))
        appName appDigest (World.mk 0 [])).2.trace = 1) ∧
    (∀ k, successfulWrites (main (conflictingClient
        (deployment [container "app" "registry.example/app:v3"]) (k + 1))
        appName appDigest (World.mk 0 [])).2.trace = 0) := by
  have key : ∀ k, main (conflictingClient
      (deployment [container "app" "registry.example/app:v3"]) (k + 1))
        appName appDigest (World.mk 0 [])
      = (.panic (.updateErr .conflict), World.mk 1
          [.get (.ok (deployment [container "app" "registry.example/app:v3"])),
            .update (deployment [container "app" "registry.example/app@sha256:aa11"])
              (some .conflict)]) := by
    intro k
    obtain ⟨pre, cm, post, result1, hcs, hlen, hcm, hset, hmain⟩ :=
      main_first_match (conflictingClient
        (deployment [container "app" "registry.example/app:v3"]) (k + 1))
        appName appDigest 0 0 (deployment [container "app" "registry.example/app:v3"])
        [container "app" "registry.example/app:v3"] 0 "registry.example/app:v3" rfl rfl
        ⟨fun j hj => absurd hj (Nat.not_lt_zero j), rfl, by decide⟩
    have hpre : pre = [] := List.length_eq_zero.mp hlen
    subst hpre
    simp only [List.nil_append, List.cons.injEq] at hcs
    obtain ⟨hcm2, hpost⟩ := hcs
    subst hpost
    have hcm3 : cm = [("name", .string "app"), ("image", .string "registry.example/app:v3")] := by
      have := hcm2
      simp only [container, JSONValue.map.injEq] at this
      exact this.symm
    subst hcm3
    have hr : result1 = deployment [container "app" "registry.example/app@sha256:aa11"] := by
      have h2 : SetNestedField (deployment [container "app" "registry.example/app:v3"])
          (.slice ([] ++ .map (mapSet
            [("name", .string "app"), ("image", .string "registry.example/app:v3")] "image"
            (.string (appName ++ "@" ++ latestDigestTag appDigest))) :: []))
          containersPath
          = some (deployment [container "app" "registry.example/app@sha256:aa11"]) := rfl
      rw [h2] at hset
      exact (Option.some.inj hset).symm
    subst hr
    rw [hmain, if_neg (by decide)]
    simp [conflictingClient]
  refine ⟨rfl, key, fun k => ?_, fun k => ?_⟩
  · rw [key k]; simp [fetches]
  · rw [key k]; simp [successfulWrites]

/-- C5. Not found: when the fetched resource has a container list in which every
entry carries an image string whose bare name (the part before the first '@', or
before the first ':' when there is no '@') differs from the logical image name,
the empty list included, the run aborts at the "failed to find container" panic
(NotFoundInResource), submits nothing and has fetched exactly once. -/
theorem C5_not_found {σ : Type} (client : Client σ) (n : String) (digest : Hash)
    (st st1 : σ) (result : Object) (cs : List JSONValue)
    (hget : client.Get st = (.ok result, st1))
    (hns : NestedSlice result containersPath = .ok cs)
    (hnone : ∀ c ∈ cs, ∃ e, imageOf c = some e ∧ bareName e ≠ n) :
    (main client n digest (World.mk st [])).1 = .panic .containerNotFound ∧
    outcome (main client n digest (World.mk st [])).1
      (main client n digest (World.mk st [])).2.trace = .NotFoundInResource ∧
    submits (main client n digest (World.mk st [])).2.trace = 0 ∧
    successfulWrites (main client n digest (World.mk st [])).2.trace = 0 ∧
    fetches (main client n digest (World.mk st [])).2.trace = 1 := by
  rw [main_of_closure_halt _ _ _ _ _ _
    (closure_no_match client n digest st st1 result cs hget hns hnone)]
  simp [outcome, submits, successfulWrites, fetches]

/-- C5 at a deployment whose only container runs another image. -/
theorem C5_not_found_witness :
    (main (fixedClient (deployment [container "db" "postgres:15"]) none)
        appName appDigest (World.mk () [])).1 = .panic .containerNotFound ∧
    outcome
      (main (fixedClient (deployment [container "db" "postgres:15"]) none)
        appName appDigest (World.mk () [])).1
      (main (fixedClient (deployment [container "db" "postgres:15"]) none)
        appName appDigest (World.mk () [])).2.trace = .NotFoundInResource ∧
    submits (main (fixedClient (deployment [container "db" "postgres:15"]) none)
        appName appDigest (World.mk () [])).2.trace = 0 ∧
    successfulWrites (main (fixedClient (deployment [container "db" "postgres:15"]) none)
        appName appDigest (World.mk () [])).2.trace = 0 ∧
    fetches (main (fixedClient (deployment [container "db" "postgres:15"]) none)
        appName appDigest (World.mk () [])).2.trace = 1 :=
  C5_not_found (fixedClient (deployment [container "db" "postgres:15"]) none)
    appName appDigest () ()
    (deployment [container "db" "postgres:15"]) [container "db" "postgres:15"] rfl rfl
    (by
      intro c hc
      rw [List.mem_singleton] at hc
      subst hc
      exact ⟨"postgres:15", rfl, by decide⟩)

/-- C6, the code at a logical image name with a registry port: the tag-form and
the bare entry of `localhost:5000/app` are split at the first ':' and their
recovered name is `localhost`, so neither is recognised as `localhost:5000/app`
and the run ends in the "failed to find container" panic; only the digest-form
entry recovers the full name. -/
theorem C6_port_name_not_recognised :
    parts "localhost:5000/app:v1" = ["localhost", "5000/app", "v1"] ∧
    currentImageTag (parts "localhost:5000/app:v1") = "latest" ∧
    parts "localhost:5000/app" = ["localhost", "5000/app"] ∧
    currentImageTag (parts "localhost:5000/app") = "5000/app" ∧
    parts "localhost:5000/app@sha256:aa11" = ["localhost:5000/app", "sha256:aa11"] ∧
    main (fixedClient (deployment [container "app" "localhost:5000/app:v1"]) none)
        "localhost:5000/app" appDigest (World.mk () [])
      = (.panic .containerNotFound,
          World.mk () [.get (.ok (deployment [container "app" "localhost:5000/app:v1"]))]) ∧
    main (fixedClient (deployment [container "app" "localhost:5000/app"]) none)
        "localhost:5000/app" appDigest (World.mk () [])
      = (.panic .containerNotFound,
          World.mk () [.get (.ok (deployment [container "app" "localhost:5000/app"]))]) :=
  ⟨by decide, by decide, by decide, by decide, by decide, rfl, rfl⟩

/-- C7. First match only, with frame: on a fetched resource whose first matching
entry is entry `i`, nothing is submitted when that entry is already pinned, and
otherwise exactly one document is submitted. Its container list has the same
length and the same entries as the fetched one at every index other than `i`
(later entries naming the same image included); entry `i` keeps every field
other than "image", which now reads `n@sha256:h`; and every field path that
parts ways with the path of the container list reads the same in both
documents, the version stamp `metadata.resourceVersion` among them. -/
theorem C7_frame {σ : Type} (client : Client σ) (n : String) (digest : Hash)
    (st st1 : σ) (result : Object) (cs : List JSONValue) (i : Nat) (img : String)
    (hget : client.Get st = (.ok result, st1))
    (hns : NestedSlice result containersPath = .ok cs)
    (hfm : FirstMatchAt cs n i img) :
    (currentImageTag (parts img) = "sha256:" ++ digest.Hex →
      submitted (main client n digest (World.mk st [])).2.trace = []) ∧
    (currentImageTag (parts img) ≠ "sha256:" ++ digest.Hex →
      ∃ result1 cs1 cm cm1,
        submitted (main client n digest (World.mk st [])).2.trace = [result1] ∧
        NestedSlice result1 containersPath = .ok cs1 ∧
        cs1.length = cs.length ∧
        (∀ j, j ≠ i → cs1[j]? = cs[j]?) ∧
        cs[i]? = some (.map cm) ∧ cs1[i]? = some (.map cm1) ∧
        mapGet cm1 "image" = some (.string (n ++ "@sha256:" ++ digest.Hex)) ∧
        (∀ k, k ≠ "image" → mapGet cm1 k = mapGet cm k) ∧
        (∀ fields, diverge fields containersPath = true →
          NestedFieldNoCopy (.map result1) fields = NestedFieldNoCopy (.map result) fields) ∧
        NestedFieldNoCopy (.map result1) ["metadata", "resourceVersion"]
          = NestedFieldNoCopy (.map result) ["metadata", "resourceVersion"]) := by
  obtain ⟨pre, cm, post, result1, rfl, hlen, hcm, hset, hmain⟩ :=
    main_first_match client n digest st st1 result cs i img hget hns hfm
  rw [hmain]
  constructor
  · intro htag
    have htag2 : currentImageTag (parts img) = latestDigestTag digest := htag
    rw [if_pos htag2]
    simp [submitted]
  · intro htag
    have htag2 : ¬ currentImageTag (parts img) = latestDigestTag digest := htag
    rw [if_neg htag2]
    refine ⟨result1, _, cm, mapSet cm "image" (.string (n ++ "@" ++ latestDigestTag digest)),
      ?_, NestedSlice_submitted _ _ _ hset, by simp, ?_, ?_, ?_, ?_, ?_, ?_, ?_⟩
    · cases hu : client.Update st1 result1 with
      | mk r st2 => cases r <;> simp [submitted]
    · intro j hj
      exact getElem?_replace pre post _ _ j (by rw [hlen]; exact hj)
    · rw [← hlen, List.getElem?_append_right (le_refl _)]
      simp
    · rw [← hlen, List.getElem?_append_right (le_refl _)]
      simp
    · rw [mapGet_mapSet_self, newImageReference_eq]
    · intro k hk
      exact mapGet_mapSet_ne cm "image" k _ hk
    · intro fields hd
      exact NestedFieldNoCopy_frame containersPath result result1 _ hset fields hd
    · exact NestedFieldNoCopy_frame containersPath result result1 _ hset _ (by decide)

/-- C7 at a deployment with a sidecar and two containers on the same image: only
the first of the two is rewritten. -/
theorem C7_frame_witness :
    ∃ result1 cs1 cm cm1,
      submitted (main (fixedClient (deployment [container "proxy" "envoy:1.2",
          container "app" "registry.example/app:v3",
          container "worker" "registry.example/app:v2"]) none)
        appName appDigest (World.mk () [])).2.trace = [result1] ∧
      NestedSlice result1 containersPath = .ok cs1 ∧
      cs1.length = [container "proxy" "envoy:1.2", container "app" "registry.example/app:v3",
        container "worker" "registry.example/app:v2"].length ∧
      (∀ j, j ≠ 1 → cs1[j]? = [container "proxy" "envoy:1.2",
        container "app" "registry.example/app:v3",
        container "worker" "registry.example/app:v2"][j]?) ∧
      [container "proxy" "envoy:1.2", container "app" "registry.example/app:v3",
        container "worker" "registry.example/app:v2"][1]? = some (.map cm) ∧
      cs1[1]? = some (.map cm1) ∧
      mapGet cm1 "image" = some (.string (appName ++ "@sha256:" ++ appDigest.Hex)) ∧
      (∀ k, k ≠ "image" → mapGet cm1 k = mapGet cm k) ∧
      (∀ fields, diverge fields containersPath = true →
        NestedFieldNoCopy (.map result1) fields
          = NestedFieldNoCopy (.map (deployment [container "proxy" "envoy:1.2",
              container "app" "registry.example/app:v3",
              container "worker" "registry.example/app:v2"])) fields) ∧
      NestedFieldNoCopy (.map result1) ["metadata", "resourceVersion"]
        = NestedFieldNoCopy (.map (deployment [container "proxy" "envoy:1.2",
            container "app" "registry.example/app:v3",
            container "worker" "registry.example/app:v2"])) ["metadata", "resourceVersion"] :=
  (C7_frame (fixedClient (deployment [container "proxy" "envoy:1.2",
      container "app" "registry.example/app:v3",
      container "worker" "registry.example/app:v2"]) none)
    appName appDigest () ()
    (deployment [container "proxy" "envoy:1.2", container "app" "registry.example/app:v3",
      container "worker" "registry.example/app:v2"])
    [container "proxy" "envoy:1.2", container "app" "registry.example/app:v3",
      container "worker" "registry.example/app:v2"] 1 "registry.example/app:v3" rfl rfl
    ⟨fun j hj =>
        match j, hj with
        | 0, _ => ⟨"envoy:1.2", rfl, by decide⟩
        | k + 1, h => absurd h (by omega),
      rfl, by decide⟩).2 (by decide)

/-- C8. Exit status: the process ends with status 0 exactly when the fetch
delivered a document with a container list, a first matching container was
found, and either it was already pinned to the target digest and nothing was
submitted, or the one submit was accepted. In every other case (fetch error,
missing or malformed container list, no matching container, rejected submit) the
run ends in a panic, which is a non-zero status. -/
theorem C8_exit_status {σ : Type} (client : Client σ) (n : String) (digest : Hash) (st : σ) :
    ((main client n digest (World.mk st [])).1.exitCode = 0 ↔
      ∃ result st1 cs i img, client.Get st = (.ok result, st1) ∧
        NestedSlice result containersPath = .ok cs ∧ FirstMatchAt cs n i img ∧
        ((currentImageTag (parts img) = "sha256:" ++ digest.Hex ∧
            submits (main client n digest (World.mk st [])).2.trace = 0) ∨
          successfulWrites (main client n digest (World.mk st [])).2.trace = 1)) ∧
    ((main client n digest (World.mk st [])).1.exitCode ≠ 0 ↔
      ∃ p, (main client n digest (World.mk st [])).1 = .panic p) := by
  rcases main_cases client n digest st with ⟨e, st1, hg, h⟩ | ⟨result, st1, hg, hns, h⟩ |
    ⟨result, st1, cs, hg, hns, hall, h⟩ | ⟨result, st1, pre, c, post, hg, hns, hpre, hc, h⟩ |
    ⟨result, st1, pre, cm, post, img, result1, hg, hns, hpre, hcm, hn, hset, h⟩
  · rw [h]
    refine ⟨⟨fun h0 => by simp [Termination.exitCode] at h0, ?_⟩, by simp [Termination.exitCode]⟩
    rintro ⟨r, s, cs, i, img, hg2, _⟩
    rw [hg] at hg2
    simp at hg2
  · rw [h]
    refine ⟨⟨fun h0 => by simp [Termination.exitCode] at h0, ?_⟩, by simp [Termination.exitCode]⟩
    rintro ⟨r, s, cs, i, img, hg2, hns2, _⟩
    rw [hg] at hg2
    simp only [Prod.mk.injEq, Except.ok.injEq] at hg2
    obtain ⟨rfl, rfl⟩ := hg2
    exact (hns cs hns2).elim
  · rw [h]
    refine ⟨⟨fun h0 => by simp [Termination.exitCode] at h0, ?_⟩, by simp [Termination.exitCode]⟩
    rintro ⟨r, s, cs2, i, img, hg2, hns2, hfm, _⟩
    rw [hg] at hg2
    simp only [Prod.mk.injEq, Except.ok.injEq] at hg2
    obtain ⟨rfl, rfl⟩ := hg2
    rw [hns] at hns2
    simp only [Nested.ok.injEq] at hns2
    subst hns2
    exact (not_FirstMatchAt_of_skips n cs i img hall hfm).elim
  · rw [h]
    refine ⟨⟨fun h0 => by simp [Termination.exitCode] at h0, ?_⟩, by simp [Termination.exitCode]⟩
    rintro ⟨r, s, cs2, i, img, hg2, hns2, hfm, _⟩
    rw [hg] at hg2
    simp only [Prod.mk.injEq, Except.ok.injEq] at hg2
    obtain ⟨rfl, rfl⟩ := hg2
    rw [hns] at hns2
    simp only [Nested.ok.injEq] at hns2
    subst hns2
    exact (not_FirstMatchAt_of_bad n pre post c i img hpre hc hfm).elim
  · have hfm := FirstMatchAt_of_split n pre post cm img hpre hcm hn
    rw [h]
    by_cases htag : currentImageTag (parts img) = latestDigestTag digest
    · rw [if_pos htag]
      refine ⟨⟨fun _ => ?_, fun _ => rfl⟩, by simp [Termination.exitCode]⟩
      exact ⟨result, st1, _, _, img, hg, hns, hfm, Or.inl ⟨htag, by simp [submits]⟩⟩
    · rw [if_neg htag]
      have hpin : ∀ img2, img2 = img →
          ¬ currentImageTag (parts img2) = "sha256:" ++ digest.Hex := by
        intro img2 h2; subst h2; exact htag
      cases hu : client.Update st1 result1 with
      | mk r st2 =>
        cases r with
        | none =>
          refine ⟨⟨fun _ => ?_, fun _ => rfl⟩, by simp [Termination.exitCode]⟩
          exact ⟨result, st1, _, _, img, hg, hns, hfm, Or.inr (by simp [successfulWrites])⟩
        | some err =>
          refine ⟨⟨fun h0 => by simp [Termination.exitCode] at h0, ?_⟩,
            by simp [Termination.exitCode]⟩
          rintro ⟨r, s, cs2, i, img2, hg2, hns2, hfm2, hor⟩
          rw [hg] at hg2
          simp only [Prod.mk.injEq, Except.ok.injEq] at hg2
          obtain ⟨rfl, rfl⟩ := hg2
          rw [hns] at hns2
          simp only [Nested.ok.injEq] at hns2
          subst hns2
          obtain ⟨_, himg⟩ := FirstMatchAt_unique n _ _ _ _ _ hfm hfm2
          rcases hor with ⟨hp, _⟩ | hw
          · exact (hpin img2 himg.symm hp).elim
          · simp [successfulWrites] at hw

/-- C8 at the scenario of the specification: the run that pins
`registry.example/app:v3` exits with status 0. -/
theorem C8_exit_status_witness :
    (main (fixedClient (deployment [container "app" "registry.example/app:v3"]) none)
      appName appDigest (World.mk () [])).1.exitCode = 0 :=
  (C8_exit_status (fixedClient (deployment [container "app" "registry.example/app:v3"]) none)
    appName appDigest ()).1.mpr
    ⟨deployment [container "app" "registry.example/app:v3"], (),
      [container "app" "registry.example/app:v3"], 0, "registry.example/app:v3", rfl, rfl,
      ⟨fun j hj => absurd hj (Nat.not_lt_zero j), rfl, by decide⟩, Or.inr rfl⟩

/-- C9. Pinned suffix is the digest's own representation: the target digest is
the one `image.Digest()` returns at line 63, the SHA-256 of the manifest, so its
algorithm tag `a` is "sha256". For every such digest with hex value `h`, the
string built at line 120 is the digest-form representation `a:h`; on a resource
whose first matching entry reads `img`, the Compare step stops the run as up to
date exactly when the suffix extracted from `img` equals `a:h`, and otherwise
the Mutate step submits one document whose matched entry reads `n@a:h`. -/
theorem C9_pinned_suffix {σ : Type} (client : Client σ) (n : String) (digest : Hash)
    (st st1 : σ) (result : Object) (cs : List JSONValue) (i : Nat) (img : String)
    (halg : digest.Algorithm = "sha256")
    (hget : client.Get st = (.ok result, st1))
    (hns : NestedSlice result containersPath = .ok cs)
    (hfm : FirstMatchAt cs n i img) :
    latestDigestTag digest = digest.Algorithm ++ ":" ++ digest.Hex ∧
    digest.digestForm = digest.Algorithm ++ ":" ++ digest.Hex ∧
    ((main client n digest (World.mk st [])).2.trace = [.get (.ok result), .printUpToDate] ↔
      currentImageTag (parts img) = digest.Algorithm ++ ":" ++ digest.Hex) ∧
    (currentImageTag (parts img) ≠ digest.Algorithm ++ ":" ++ digest.Hex →
      ∃ result1 cs1, submitted (main client n digest (World.mk st [])).2.trace = [result1] ∧
        NestedSlice result1 containersPath = .ok cs1 ∧
        cs1[i]?.bind imageOf
          = some (n ++ "@" ++ (digest.Algorithm ++ ":" ++ digest.Hex))) := by
  have hform : latestDigestTag digest = digest.Algorithm ++ ":" ++ digest.Hex :=
    (latestDigestTag_eq_digestForm_iff digest).mpr halg
  obtain ⟨pre, cm, post, result1, rfl, hlen, hcm, hset, hmain⟩ :=
    main_first_match client n digest st st1 result cs i img hget hns hfm
  rw [hmain, ← hform]
  refine ⟨rfl, hform.symm, ?_, ?_⟩
  · by_cases htag : currentImageTag (parts img) = latestDigestTag digest
    · rw [if_pos htag]
      exact ⟨fun _ => htag, fun _ => rfl⟩
    · rw [if_neg htag]
      refine ⟨fun h => ?_, fun h => absurd h htag⟩
      cases hu : client.Update st1 result1 with
      | mk r st2 =>
        rw [hu] at h
        cases r <;> simp at h
  · intro htag
    rw [if_neg htag]
    refine ⟨result1, _, ?_, NestedSlice_submitted _ _ _ hset, ?_⟩
    · cases hu : client.Update st1 result1 with
      | mk r st2 => cases r <;> simp [submitted]
    · rw [← hlen, List.getElem?_append_right (le_refl _)]
      simp [imageOf_mapSet]

/-- C9 at the digest `sha256:aa11` and a deployment whose entry is already pinned
to it. -/
theorem C9_pinned_suffix_witness :
    latestDigestTag appDigest = appDigest.Algorithm ++ ":" ++ appDigest.Hex ∧
    appDigest.digestForm = appDigest.Algorithm ++ ":" ++ appDigest.Hex ∧
    ((main (fixedClient (deployment [container "app" "registry.example/app@sha256:aa11"])
          none) appName appDigest (World.mk () [])).2.trace
        = [.get (.ok (deployment [container "app" "registry.example/app@sha256:aa11"])),
            .printUpToDate] ↔
      currentImageTag (parts "registry.example/app@sha256:aa11")
        = appDigest.Algorithm ++ ":" ++ appDigest.Hex) ∧
    (currentImageTag (parts "registry.example/app@sha256:aa11")
        ≠ appDigest.Algorithm ++ ":" ++ appDigest.Hex →
      ∃ result1 cs1,
        submitted (main (fixedClient
          (deployment [container "app" "registry.example/app@sha256:aa11"]) none)
          appName appDigest (World.mk () [])).2.trace = [result1] ∧
        NestedSlice result1 containersPath = .ok cs1 ∧
        cs1[0]?.bind imageOf
          = some (appName ++ "@" ++ (appDigest.Algorithm ++ ":" ++ appDigest.Hex))) :=
  C9_pinned_suffix (fixedClient (deployment [container "app" "registry.example/app@sha256:aa11"])
    none) appName appDigest () ()
    (deployment [container "app" "registry.example/app@sha256:aa11"])
    [container "app" "registry.example/app@sha256:aa11"] 0 "registry.example/app@sha256:aa11"
    rfl rfl rfl ⟨fun j hj => absurd hj (Nat.not_lt_zero j), rfl, by decide⟩

/-- C10. Single attempt: whatever the store does, the function passed to the retry
helper never returns; it always halts the process, with exit status 0 or with a
panic of its own. One invocation of the program therefore fetches exactly once,
submits at most once, and never reaches the "update failed" panic that follows
the retry helper. -/
theorem C10_single_attempt {σ : Type} (client : Client σ) (n : String) (digest : Hash)
    (st : σ) :
    (∀ w : World σ, ∃ t w1, closure client n digest w = (.halt t, w1) ∧
      main client n digest w = (t, w1) ∧
      (t = .exit 0 ∨ ∃ p, t = .panic p ∧ ∀ e, p ≠ .updateFailed e)) ∧
    fetches (main client n digest (World.mk st [])).2.trace = 1 ∧
    submits (main client n digest (World.mk st [])).2.trace ≤ 1 ∧
    (∀ e, (main client n digest (World.mk st [])).1 ≠ .panic (.updateFailed e)) := by
  refine ⟨?_, ?_⟩
  · intro w
    obtain ⟨t, w1, h, hend⟩ := closure_halts client n digest w
    exact ⟨t, w1, h, main_of_closure_halt _ _ _ _ _ _ h, hend⟩
  · rcases main_cases client n digest st with ⟨e, st1, _, h⟩ | ⟨result, st1, _, _, h⟩ |
      ⟨result, st1, cs, _, _, _, h⟩ | ⟨result, st1, pre, c, post, _, _, _, _, h⟩ |
      ⟨result, st1, pre, cm, post, img, result1, _, _, _, _, _, _, h⟩
    · rw [h]; simp [fetches, submits]
    · rw [h]; simp [fetches, submits]
    · rw [h]; simp [fetches, submits]
    · rw [h]; simp [fetches, submits]
    · rw [h]
      by_cases htag : currentImageTag (parts img) = latestDigestTag digest
      · rw [if_pos htag]; simp [fetches, submits]
      · rw [if_neg htag]
        cases hu : client.Update st1 result1 with
        | mk r st2 => cases r <;> simp [fetches, submits]

end K8sDeploymentUpdater
